import Mathlib

set_option maxRecDepth 100000

/-!
Verification of the normalization and fuzzy-matching core of the
Biblatex_check repository (`biblatex_diagnostics.py`).

The Python source is shallowly embedded: each Python function is
translated into an executable Lean definition over `List Char` (with
`String` wrappers keeping the source names), and the spec claims are
settled as theorems about those definitions.

Unicode remarks.  The source calls `unicodedata.normalize('NFD', ·)`
followed by removal of combining marks.  For the Latin repertoire this
program works on, that composite acts independently on each character:
a precomposed accented Latin letter maps to its base letter, a combining
mark is dropped, anything else is unchanged.  We embed exactly that
fragment through the finite tables `accentDecompTable` and
`combiningMarksList`.  Similarly `str.lower` / `str.upper` /
`str.isupper` are embedded for the ASCII and Latin-1 ranges
(`pyLowerChar`, `pyUpperChar`, `pyIsUpperStr`).
-/

namespace Biblatex

/-! ## Character classes -/

/-- Whitespace as recognised by Python's `str.split()` / `str.strip()`. -/
def isPySpace (c : Char) : Bool :=
  c == ' ' || c == '\t' || c == '\n' || c == '\r' || c == Char.ofNat 11 || c == Char.ofNat 12

/-- ASCII letter, as matched by the regex class `[a-zA-Z]`. -/
def isAsciiLetter (c : Char) : Bool :=
  ('a' ≤ c && c ≤ 'z') || ('A' ≤ c && c ≤ 'Z')

/-- Python `str.lower`, embedded for the ASCII and Latin-1 ranges plus the
few Latin Extended letters this program manipulates. -/
def pyLowerChar (c : Char) : Char :=
  if 'A' ≤ c && c ≤ 'Z' then Char.ofNat (c.toNat + 32)
  else if 192 ≤ c.toNat && c.toNat ≤ 222 && c.toNat != 215 then Char.ofNat (c.toNat + 32)
  else if c == 'Œ' then 'œ'
  else if c == 'Š' then 'š'
  else if c == 'Ž' then 'ž'
  else if c == 'Ł' then 'ł'
  else if c == 'Ő' then 'ő'
  else if c == 'Ű' then 'ű'
  else c

/-- Python `str.lower` on a character list. -/
def pyLower (s : List Char) : List Char :=
  s.map pyLowerChar

/-- Python `str.upper` for one character; `ß` uppercases to the two-letter
string `SS`, hence the list-valued result. -/
def pyUpperChar (c : Char) : List Char :=
  if 'a' ≤ c && c ≤ 'z' then [Char.ofNat (c.toNat - 32)]
  else if 224 ≤ c.toNat && c.toNat ≤ 254 && c.toNat != 247 then [Char.ofNat (c.toNat - 32)]
  else if c == 'ß' then ['S', 'S']
  else if c == 'ÿ' then ['Ÿ']
  else if c == 'œ' then ['Œ']
  else if c == 'š' then ['Š']
  else if c == 'ž' then ['Ž']
  else if c == 'ł' then ['Ł']
  else if c == 'ő' then ['Ő']
  else if c == 'ű' then ['Ű']
  else [c]

/-- Python `str.upper` on a character list. -/
def pyUpper (s : List Char) : List Char :=
  s.flatMap pyUpperChar

/-- Cased character (has upper/lower variants), for `str.isupper`. -/
def pyIsCased (c : Char) : Bool :=
  ('a' ≤ c && c ≤ 'z') || ('A' ≤ c && c ≤ 'Z') ||
    (192 ≤ c.toNat && c.toNat ≤ 255 && c.toNat != 215 && c.toNat != 247) ||
    (['Œ', 'œ', 'Š', 'š', 'Ž', 'ž', 'Ł', 'ł', 'Ő', 'ő', 'Ű', 'ű'].contains c)

/-- Uppercase cased character, for `str.isupper`. -/
def pyIsUpperChar (c : Char) : Bool :=
  ('A' ≤ c && c ≤ 'Z') || (192 ≤ c.toNat && c.toNat ≤ 222 && c.toNat != 215) ||
    (['Œ', 'Š', 'Ž', 'Ł', 'Ő', 'Ű'].contains c)

/-- Python `str.isupper`: at least one cased character, and every cased
character is uppercase. -/
def pyIsUpperStr (s : List Char) : Bool :=
  s.any pyIsCased && s.all (fun c => !pyIsCased c || pyIsUpperChar c)

/-! ## List-of-characters utilities (Python string operations) -/

/-- Boolean test that `p` is a leading segment of `s`
(Python `s.startswith(p)` reads `isPfx p s`). -/
def isPfx : List Char → List Char → Bool
  | [], _ => true
  | _ :: _, [] => false
  | a :: as, b :: bs => a == b && isPfx as bs

/-- Python substring containment: `containsL p s` models `p in s`. -/
def containsL (p : List Char) : List Char → Bool
  | [] => isPfx p []
  | c :: cs => isPfx p (c :: cs) || containsL p cs

/-- Worker for `replaceL`, fuelled so that the recursion is structural.
The initial fuel `s.length` always suffices because every step consumes at
least one character of `s`. -/
def replaceAuxF (p : Char) (ps rep : List Char) : Nat → List Char → List Char
  | 0, s => s
  | _ + 1, [] => []
  | fuel + 1, c :: cs =>
    if isPfx (p :: ps) (c :: cs) then rep ++ replaceAuxF p ps rep fuel (cs.drop ps.length)
    else c :: replaceAuxF p ps rep fuel cs

/-- Python `s.replace(pat, rep)`: left-to-right, non-overlapping. -/
def replaceL (pat rep s : List Char) : List Char :=
  match pat with
  | [] => s
  | p :: ps => replaceAuxF p ps rep s.length s

/-- Apply a sequence of `str.replace` rewrites in order (a Python loop
over an insertion-ordered dict of pattern/replacement pairs). -/
def foldReplace (tbl : List (List Char × List Char)) (s : List Char) : List Char :=
  tbl.foldl (fun acc pr => replaceL pr.1 pr.2 acc) s

/-- Worker for `subG`: scan left to right; at each position `try` receives
the head and the tail and may consume the head plus `k` tail characters,
emitting a single replacement character. -/
def subGenF (tr : Char → List Char → Option (Char × Nat)) : Nat → List Char → List Char
  | 0, s => s
  | _ + 1, [] => []
  | fuel + 1, c :: cs =>
    match tr c cs with
    | some (L, k) => L :: subGenF tr fuel (cs.drop k)
    | none => c :: subGenF tr fuel cs

/-- One `re.sub` pass for a fixed-shape pattern given by `try`. -/
def subG (tr : Char → List Char → Option (Char × Nat)) (s : List Char) : List Char :=
  subGenF tr s.length s

/-- Worker for `splitRuns`. -/
def splitRunsAux (p : Char → Bool) : List Char → List Char → List (List Char)
  | [], acc => if acc.isEmpty then [] else [acc.reverse]
  | c :: cs, acc =>
    if p c then
      if acc.isEmpty then splitRunsAux p cs [] else acc.reverse :: splitRunsAux p cs []
    else splitRunsAux p cs (c :: acc)

/-- Split on runs of separator characters, discarding empty pieces
(Python `str.split()` behaviour, generalised to a character class). -/
def splitRuns (p : Char → Bool) (s : List Char) : List (List Char) :=
  splitRunsAux p s []

/-- Python `str.split()` with no argument. -/
def splitWs (s : List Char) : List (List Char) :=
  splitRuns isPySpace s

/-- Worker for `splitOnChar`. -/
def splitOnCharAux (sep : Char) : List Char → List Char → List (List Char)
  | [], acc => [acc.reverse]
  | c :: cs, acc =>
    if c == sep then acc.reverse :: splitOnCharAux sep cs []
    else splitOnCharAux sep cs (c :: acc)

/-- Python `str.split(sep)` for a one-character separator: splits at every
occurrence, keeping empty pieces; always returns at least one piece. -/
def splitOnChar (sep : Char) (s : List Char) : List (List Char) :=
  splitOnCharAux sep s []

/-- Python `str.strip()` (strip surrounding whitespace). -/
def pyStripL (s : List Char) : List Char :=
  ((s.dropWhile isPySpace).reverse.dropWhile isPySpace).reverse

/-- Python `str.rstrip(set)`: drop trailing characters from `set`. -/
def rstripL (set : List Char) (s : List Char) : List Char :=
  (s.reverse.dropWhile (fun c => set.contains c)).reverse

/-- Python `str.strip(set)`: drop characters from `set` at both ends. -/
def stripSetL (set : List Char) (s : List Char) : List Char :=
  ((s.dropWhile (fun c => set.contains c)).reverse.dropWhile (fun c => set.contains c)).reverse

/-- Python `' '.join(pieces)`. -/
def joinSp (ws : List (List Char)) : List Char :=
  List.intercalate [' '] ws

/-! ## LaTeX rewrite tables (`normalize_latex_text`, lines 93-197) -/

/-- The `special_chars` dict: complete LaTeX special-character macros, in
source (insertion) order — longer patterns first within each group. -/
def latexSpecialChars : List (List Char × List Char) :=
  [ (['{', '\\', 'o', '}'], ['o']),
    (['\\', 'o', '{', '}'], ['o']),
    (['\\', 'o', ' '], ['o']),
    (['\\', 'o'], ['o']),
    (['{', '\\', 'O', '}'], ['O']),
    (['\\', 'O', '{', '}'], ['O']),
    (['\\', 'O', ' '], ['O']),
    (['\\', 'O'], ['O']),
    (['{', '\\', 'a', 'a', '}'], ['a', 'a']),
    (['\\', 'a', 'a', '{', '}'], ['a', 'a']),
    (['\\', 'a', 'a', ' '], ['a', 'a']),
    (['\\', 'a', 'a'], ['a', 'a']),
    (['{', '\\', 'A', 'A', '}'], ['A', 'A']),
    (['\\', 'A', 'A', '{', '}'], ['A', 'A']),
    (['\\', 'A', 'A', ' '], ['A', 'A']),
    (['\\', 'A', 'A'], ['A', 'A']),
    (['{', '\\', 'a', 'e', '}'], ['a', 'e']),
    (['\\', 'a', 'e', '{', '}'], ['a', 'e']),
    (['\\', 'a', 'e', ' '], ['a', 'e']),
    (['\\', 'a', 'e'], ['a', 'e']),
    (['{', '\\', 'A', 'E', '}'], ['A', 'E']),
    (['\\', 'A', 'E', '{', '}'], ['A', 'E']),
    (['\\', 'A', 'E', ' '], ['A', 'E']),
    (['\\', 'A', 'E'], ['A', 'E']),
    (['{', '\\', 'o', 'e', '}'], ['o', 'e']),
    (['\\', 'o', 'e', '{', '}'], ['o', 'e']),
    (['\\', 'o', 'e', ' '], ['o', 'e']),
    (['\\', 'o', 'e'], ['o', 'e']),
    (['{', '\\', 'O', 'E', '}'], ['O', 'E']),
    (['\\', 'O', 'E', '{', '}'], ['O', 'E']),
    (['\\', 'O', 'E', ' '], ['O', 'E']),
    (['\\', 'O', 'E'], ['O', 'E']),
    (['{', '\\', 's', 's', '}'], ['s', 's']),
    (['\\', 's', 's', '{', '}'], ['s', 's']),
    (['\\', 's', 's', ' '], ['s', 's']),
    (['\\', 's', 's'], ['s', 's']) ]

/-- The `base_letters` dict: LaTeX dotless-letter macros. -/
def baseLettersTable : List (List Char × List Char) :=
  [ (['\\', 'i'], ['i']),
    (['\\', 'j'], ['j']),
    (['\\', 'l'], ['l']),
    (['\\', 'L'], ['L']) ]

/-- The thirteen LaTeX accent command characters, in the `latex_accents`
dict order (each command is a backslash followed by this character). -/
def accentCmds : List Char :=
  ['\'', Char.ofNat 96, '^', '"', '~', '=', '.', 'u', 'v', 'H', 'c', 'k', 'r']

/-- Pattern pass 1 for one accent command: braced command with braced
letter, regex `\x7b CMD \x7b([a-zA-Z])\x7d\x7d`. -/
def tryAcc1 (a : Char) (c : Char) (cs : List Char) : Option (Char × Nat) :=
  if c == '{' then
    match cs with
    | '\\' :: d :: '{' :: L :: '}' :: '}' :: _ =>
      if d == a && isAsciiLetter L then some (L, 6) else none
    | _ => none
  else none

/-- Pattern pass 2: braced command with bare letter. -/
def tryAcc2 (a : Char) (c : Char) (cs : List Char) : Option (Char × Nat) :=
  if c == '{' then
    match cs with
    | '\\' :: d :: L :: '}' :: _ =>
      if d == a && isAsciiLetter L then some (L, 4) else none
    | _ => none
  else none

/-- Pattern pass 3: bare command with braced letter. -/
def tryAcc3 (a : Char) (c : Char) (cs : List Char) : Option (Char × Nat) :=
  if c == '\\' then
    match cs with
    | d :: '{' :: L :: '}' :: _ =>
      if d == a && isAsciiLetter L then some (L, 4) else none
    | _ => none
  else none

/-- Pattern pass 4: bare command with bare letter. -/
def tryAcc4 (a : Char) (c : Char) (cs : List Char) : Option (Char × Nat) :=
  if c == '\\' then
    match cs with
    | d :: L :: _ =>
      if d == a && isAsciiLetter L then some (L, 2) else none
    | _ => none
  else none

/-- The four `re.sub` passes for one accent command, in source order. -/
def applyAccentCmd (a : Char) (s : List Char) : List Char :=
  subG (tryAcc4 a) (subG (tryAcc3 a) (subG (tryAcc2 a) (subG (tryAcc1 a) s)))

/-- The loop over all thirteen accent commands. -/
def applyAccents (s : List Char) : List Char :=
  accentCmds.foldl (fun acc a => applyAccentCmd a acc) s

/-- Removal of residual braces (`text.replace` on each brace). -/
def removeBraces (s : List Char) : List Char :=
  s.filter (fun c => !(c == '{' || c == '}'))

/-! ## `remove_accents` (lines 64-90) -/

/-- The `special_unicode_chars` dict: base characters that do not
decompose under NFD. -/
def specialUnicodeTable : List (Char × List Char) :=
  [ ('ø', ['o']), ('Ø', ['O']),
    ('æ', ['a', 'e']), ('Æ', ['A', 'E']),
    ('œ', ['o', 'e']), ('Œ', ['O', 'E']),
    ('å', ['a']), ('Å', ['A']),
    ('ß', ['s', 's']),
    ('ð', ['d']), ('Ð', ['D']),
    ('þ', ['t', 'h']), ('Þ', ['T', 'H']),
    ('ł', ['l']), ('Ł', ['L']) ]

/-- Replacement of one special Unicode character (identity otherwise). -/
def specialUniChar (c : Char) : List Char :=
  (specialUnicodeTable.lookup c).getD [c]

/-- Combining marks (Unicode category Mn) relevant to the Latin
repertoire: the marks produced by NFD-decomposing the table below. -/
def combiningMarksList : List Char :=
  [ Char.ofNat 768, Char.ofNat 769, Char.ofNat 770, Char.ofNat 771,
    Char.ofNat 772, Char.ofNat 774, Char.ofNat 775, Char.ofNat 776,
    Char.ofNat 778, Char.ofNat 779, Char.ofNat 780,
    Char.ofNat 807, Char.ofNat 808 ]

/-- NFD decomposition restricted to the Latin repertoire: each
precomposed accented letter maps to its base letter (its combining marks
are dropped by the subsequent Mn-filter, so they are not listed). -/
def accentDecompTable : List (Char × Char) :=
  [ ('á', 'a'), ('à', 'a'), ('â', 'a'), ('ä', 'a'), ('ã', 'a'), ('ā', 'a'), ('ă', 'a'), ('ą', 'a'),
    ('é', 'e'), ('è', 'e'), ('ê', 'e'), ('ë', 'e'), ('ē', 'e'), ('ĕ', 'e'), ('ė', 'e'), ('ę', 'e'), ('ě', 'e'),
    ('í', 'i'), ('ì', 'i'), ('î', 'i'), ('ï', 'i'), ('ī', 'i'),
    ('ó', 'o'), ('ò', 'o'), ('ô', 'o'), ('ö', 'o'), ('õ', 'o'), ('ō', 'o'), ('ő', 'o'),
    ('ú', 'u'), ('ù', 'u'), ('û', 'u'), ('ü', 'u'), ('ū', 'u'), ('ů', 'u'), ('ű', 'u'),
    ('ý', 'y'), ('ÿ', 'y'),
    ('ñ', 'n'), ('ń', 'n'), ('ň', 'n'),
    ('ç', 'c'), ('ć', 'c'), ('č', 'c'),
    ('š', 's'), ('ş', 's'), ('ś', 's'),
    ('ž', 'z'), ('ż', 'z'), ('ź', 'z'),
    ('ř', 'r'), ('ğ', 'g'), ('ď', 'd'), ('ť', 't'), ('ľ', 'l'), ('ĺ', 'l'),
    ('Á', 'A'), ('À', 'A'), ('Â', 'A'), ('Ä', 'A'), ('Ã', 'A'), ('Ā', 'A'),
    ('É', 'E'), ('È', 'E'), ('Ê', 'E'), ('Ë', 'E'),
    ('Í', 'I'), ('Ì', 'I'), ('Î', 'I'), ('Ï', 'I'),
    ('Ó', 'O'), ('Ò', 'O'), ('Ô', 'O'), ('Ö', 'O'), ('Õ', 'O'),
    ('Ú', 'U'), ('Ù', 'U'), ('Û', 'U'), ('Ü', 'U'),
    ('Ý', 'Y'), ('Ñ', 'N'), ('Ç', 'C'),
    ('Š', 'S'), ('Ž', 'Z'), ('Ć', 'C'), ('Č', 'C'), ('Ř', 'R'), ('Ğ', 'G') ]

/-- NFD decomposition followed by the Mn-filter, acting on one
character. -/
def stripMark (c : Char) : List Char :=
  if combiningMarksList.contains c then []
  else
    match accentDecompTable.lookup c with
    | some b => [b]
    | none => [c]

/-- Python `remove_accents` (lines 64-90): special-character replacement,
then NFD decomposition with combining marks dropped. -/
def removeAccentsL (s : List Char) : List Char :=
  (s.flatMap specialUniChar).flatMap stripMark

/-- String wrapper for `remove_accents`. -/
def remove_accents (s : String) : String :=
  ⟨removeAccentsL s.data⟩

/-! ## `normalize_latex_text` (lines 93-197) -/

/-- Final punctuation removal: regex `[-\x27 backtick]` deleted. -/
def removePunctL (s : List Char) : List Char :=
  s.filter (fun c => !(c == '-' || c == '\'' || c == Char.ofNat 96))

/-- Python `normalize_latex_text` on character lists: special-character
macros, dotless-letter macros, accent commands, brace removal, accent
removal, punctuation removal — in source order. -/
def normLatexL (s : List Char) : List Char :=
  removePunctL (removeAccentsL (removeBraces
    (applyAccents (foldReplace baseLettersTable (foldReplace latexSpecialChars s)))))

/-- Python `normalize_latex_text` (lines 93-197). -/
def normalize_latex_text (s : String) : String :=
  ⟨normLatexL s.data⟩

/-! ## Journal-name normalization and fuzzy matching (lines 200-341) -/

/-- Python `normalize_ampersand` (lines 200-204). -/
def normalizeAmpersandL (s : List Char) : List Char :=
  replaceL (['\\', '&']) (['&']) (replaceL (['&', 'a', 'm', 'p', ';']) (['&']) s)

/-- Python `normalize_journal_name` (lines 219-256) on character lists:
lowercase, strip braces, canonicalise ampersands, drop periods, strip,
drop a leading article, collapse whitespace. -/
def normalizeJournalNameL (s : List Char) : List Char :=
  let j1 := pyLower s
  let j2 := removeBraces j1
  let j3 := normalizeAmpersandL j2
  let j4 := j3.filter (fun c => !(c == '.'))
  let j5 := pyStripL j4
  let j6 := if isPfx (['t', 'h', 'e', ' ']) j5 then pyStripL (j5.drop 4) else j5
  joinSp (splitWs j6)

/-- Python `normalize_journal_name`. -/
def normalize_journal_name (s : String) : String :=
  ⟨normalizeJournalNameL s.data⟩

/-- The normalized whitespace-token set of a journal name (the Python
`set(norm.split())`, represented as a duplicate-free list). -/
def journalWords (s : List Char) : List (List Char) :=
  (splitWs (normalizeJournalNameL s)).dedup

/-- Stop words excluded from the abbreviation heuristic (line 290). -/
def journalStopWords : List (List Char) :=
  [("of").data, ("the").data, ("and").data, ("for").data, ("in").data, ("on").data]

/-- The inner condition of the abbreviation loop (lines 317-335): a token
pair participates when one is a prefix of the other, and when one side is
very short the short one must be a leading segment of the longer one.
The Python inner loop over a set `break`s on the first success, so a
token of the first set is counted exactly when some token of the second
set satisfies this condition; that count is independent of the arbitrary
set-iteration order. -/
def matchesAbbrev (w1 w2 : List Char) : Bool :=
  if isPfx w2 w1 || isPfx w1 w2 then
    let mn := min w1.length w2.length
    let mx := max w1.length w2.length
    if mn ≤ 2 && mx > 2 then
      let shorter := if w1.length < w2.length then w1 else w2
      let longer := if w1.length < w2.length then w2 else w1
      isPfx shorter longer
    else true
  else false

/-- Python `journals_match_fuzzy` (lines 259-341) on character lists.
Jaccard similarity is computed in `ℚ`; for the small word-set sizes
involved, the float comparisons of the source agree with the exact
rational ones. -/
def journalsMatchFuzzyL (journal1 journal2 : List Char) (threshold : ℚ) : Bool :=
  let norm1 := normalizeJournalNameL journal1
  let norm2 := normalizeJournalNameL journal2
  if norm1 = norm2 then true
  else
    let words1 := journalWords journal1
    let words2 := journalWords journal2
    if words1.isEmpty || words2.isEmpty then false
    else
      let words1f := words1.filter (fun w => !(journalStopWords.contains w))
      let words2f := words2.filter (fun w => !(journalStopWords.contains w))
      let inter := (words1.filter (fun w => words2.contains w)).length
      let union := (words1 ++ words2.filter (fun w => !(words1.contains w))).length
      let similarity : ℚ := if union > 0 then mkRat inter union else 0
      if containsL norm1 norm2 || containsL norm2 norm1 then
        decide (similarity > mkRat 4 10)
      else
        let smaller := if words1.length < words2.length then words1 else words2
        let larger := if words1.length < words2.length then words2 else words1
        if smaller.all (fun w => larger.contains w) then true
        else
          let abbrevMatches := words1f.countP (fun w1 => words2f.any (fun w2 => matchesAbbrev w1 w2))
          if (abbrevMatches : ℚ) ≥ ((min words1f.length words2f.length : ℚ) * mkRat 1 2) then true
          else decide (similarity ≥ threshold)

/-- Python `journals_match_fuzzy`; the default threshold is `0.6`. -/
def journals_match_fuzzy (journal1 journal2 : String) (threshold : ℚ) : Bool :=
  journalsMatchFuzzyL journal1.data journal2.data threshold

/-! ## Initials matching (lines 344-378) -/

/-- Python `authors_initials_match` (lines 344-378): lenient when either
side is empty; otherwise uppercase, drop periods and spaces, then accept
on equality, on either being a leading segment of the other, or on equal
first characters.  The final branch is reachable only with two non-empty
strings (an empty side is caught by the leading-segment test), so the
fall-through value is irrelevant. -/
def authors_initials_match (initials1 initials2 : String) : Bool :=
  if initials1.data.isEmpty || initials2.data.isEmpty then true
  else
    let i1 := (pyUpper initials1.data).filter (fun c => !(c == '.' || c == ' '))
    let i2 := (pyUpper initials2.data).filter (fun c => !(c == '.' || c == ' '))
    if i1 = i2 then true
    else if isPfx i2 i1 || isPfx i1 i2 then true
    else
      match i1, i2 with
      | x :: _, y :: _ => x == y
      | _, _ => true

/-! ## Transliteration variants (lines 381-440) -/

/-- The double-letter transliterations applied in source order
(lines 423-428). -/
def translitTable : List (List Char × List Char) :=
  [ (['ö'], ['o', 'e']), (['Ö'], ['O', 'e']),
    (['ä'], ['a', 'e']), (['Ä'], ['A', 'e']),
    (['ü'], ['u', 'e']), (['Ü'], ['U', 'e']),
    (['ø'], ['o', 'e']), (['Ø'], ['O', 'e']),
    (['å'], ['a', 'a']), (['Å'], ['A', 'a']),
    (['œ'], ['o', 'e']), (['Œ'], ['O', 'e']) ]

/-- Python `normalize_with_transliterations` (lines 381-440) on character
lists: base normalization first, then (for `Last, First` inputs) the
surname-only base form, then — when the original contains one of
`ö ä ü ø å œ` — the double-letter transliterated full form and its
surname-only form.  Every addition is guarded by a membership test. -/
def normalizeWithTransliterationsL (t : List Char) : List (List Char) :=
  let base := pyLower (normLatexL t)
  let v1 : List (List Char) := [base]
  let v2 :=
    if t.contains ',' then
      let lastnameOnly := pyStripL ((splitOnChar ',' t).getD 0 [])
      let lastnameBase := pyLower (normLatexL lastnameOnly)
      if v1.contains lastnameBase then v1 else v1 ++ [lastnameBase]
    else v1
  let originalLower := pyLower t
  let hasSpecial := (['ö', 'ä', 'ü', 'ø', 'å', 'œ'] : List Char).any (fun c => originalLower.contains c)
  if hasSpecial then
    let variant := pyLower (removePunctL (foldReplace translitTable t))
    let v3 := if variant ≠ base && !(v2.contains variant) then v2 ++ [variant] else v2
    let v4 :=
      if variant.contains ',' then
        let lastnameVariant := pyStripL ((splitOnChar ',' variant).getD 0 [])
        if v3.contains lastnameVariant then v3 else v3 ++ [lastnameVariant]
      else v3
    v4
  else v2

/-- Python `normalize_with_transliterations`. -/
def normalize_with_transliterations (t : String) : List String :=
  (normalizeWithTransliterationsL t.data).map (fun l => (⟨l⟩ : String))

/-! ## Citation key components (lines 443-471) -/

/-- The regex `(19|20)\d\x7b2\x7d` tested at the start of a character
list. -/
def isYearStart : List Char → Bool
  | a :: b :: c :: d :: _ =>
    ((a == '1' && b == '9') || (a == '2' && b == '0')) && c.isDigit && d.isDigit
  | _ => false

/-- Leftmost search for the year regex, returning the characters before
the match together with the four matched characters. -/
def findYearSplit : List Char → Option (List Char × List Char)
  | [] => none
  | c :: cs =>
    if isYearStart (c :: cs) then some ([], (c :: cs).take 4)
    else
      match findYearSplit cs with
      | some (pre, y) => some (c :: pre, y)
      | none => none

/-- Python `extract_citation_key_components` (lines 443-471). -/
def extract_citation_key_components (citation_key : String) : Option String × Option String :=
  match findYearSplit citation_key.data with
  | none => (none, none)
  | some (pre, y) =>
    let authorPart := rstripL (['_', '-']) pre
    if authorPart.isEmpty then (none, none)
    else (some ⟨pyLower (normLatexL authorPart)⟩, some ⟨y⟩)

/-! ## Author-name components (lines 474-563) -/

/-- The `NAME_PARTICLES` set (line 37), lowercased tokens. -/
def nameParticles : List (List Char) :=
  [("von").data, ("van").data, ("de").data, ("del").data, ("della").data, ("di").data,
   ("du").data, ("le").data, ("la").data, ("da").data, ("dos").data, ("das").data,
   ("ten").data, ("ter").data, ("den").data, ("der").data]

/-- The `NAME_SUFFIXES` set (line 38). -/
def nameSuffixes : List (List Char) :=
  [("jr").data, ("jr.").data, ("sr").data, ("sr.").data, ("ii").data, ("iii").data,
   ("iv").data, ("v").data]

/-- Initials extraction from the given-name segment (lines 544-561).  The
source splits on the regex class `[\s\-]+` and skips empty pieces, which
is the run-splitting below; `part.strip()` is a no-op on the resulting
separator-free tokens. -/
def initialsFrom (firstPart : List Char) : List Char :=
  if firstPart.isEmpty then []
  else
    let firstNormalized := normLatexL firstPart
    let nameParts := splitRuns (fun c => isPySpace c || c == '-') firstNormalized
    nameParts.foldl
      (fun acc part =>
        let part := pyStripL part
        if !part.isEmpty && !(nameParticles.contains (pyLower part)) &&
            !(nameSuffixes.contains (rstripL (['.']) (pyLower part))) then
          let partNoDots := part.filter (fun c => !(c == '.'))
          if 2 ≤ partNoDots.length && partNoDots.length ≤ 4 && pyIsUpperStr partNoDots then
            acc ++ partNoDots
          else acc ++ pyUpperChar (part.headD ' ')
        else acc)
      []

/-- The leading-particle scan of the comma branch (lines 497-510): walk
the surname-side tokens except the last from the left, collecting
particles until the first non-particle; when at least one particle was
found the surname text is rebuilt from the remaining tokens. -/
def commaScanRun (ws : List (List Char)) : List (List Char) :=
  (ws.take (ws.length - 1)).takeWhile (fun w => nameParticles.contains (pyLower w))

/-- The comma-branch result (particles, surname text) for the scanned
token list; `commaScanRun` is the collected particle run. -/
def commaScan (ws : List (List Char)) (lastPart : List Char) : List (List Char) × List Char :=
  if ws.length > 1 then
    if (commaScanRun ws).length > 0 then
      ((commaScanRun ws).map pyLower, joinSp (ws.drop (commaScanRun ws).length))
    else ([], lastPart)
  else ([], lastPart)

/-- The backward particle walk of the space branch (lines 534-538).  The
first argument of the recursion is the loop variable `last_idx`; each
iteration prepends the particle, rebuilds the given-name segment, and —
exactly as the source does — resets the surname text to the absolute
last token `parts[-1]` rather than `parts[last_idx]`. -/
def spaceWalk (parts : List (List Char)) :
    Nat → List (List Char) → List Char → List Char → List (List Char) × List Char × List Char
  | 0, prt, lp, fp => (prt, lp, fp)
  | li + 1, prt, lp, fp =>
    if nameParticles.contains (pyLower (parts.getD li [])) then
      spaceWalk parts li (pyLower (parts.getD li []) :: prt) (parts.getLastD []) (joinSp (parts.take li))
    else (prt, lp, fp)

/-- Python `extract_author_components` (lines 474-563). -/
def extract_author_components (person_str : String) : String × String × List String :=
  let ps := pyStripL person_str.data
  if ps.contains ',' then
    let parts := splitOnChar ',' ps
    let last0 := pyStripL (parts.getD 0 [])
    let firstPart := if parts.length > 1 then pyStripL (parts.getD 1 []) else []
    let (prts, lastPart) := commaScan (splitWs last0) last0
    (⟨pyStripL (pyLower (normLatexL lastPart))⟩, ⟨initialsFrom firstPart⟩,
      prts.map (fun p => (⟨p⟩ : String)))
  else
    match splitWs ps with
    | [] => ("", "", [])
    | [w] => (⟨pyLower (normLatexL w)⟩, "", [])
    | _ :: _ :: _ =>
      let parts := splitWs ps
      let lastIdx := parts.length - 1
      let lastLower := rstripL (['.']) (pyLower (parts.getD lastIdx []))
      let isSuf := nameSuffixes.contains lastLower
      let sufParticles : List (List Char) := if isSuf then [lastLower] else []
      let li := if isSuf then lastIdx - 1 else lastIdx
      let (prts, lastPart, firstPart) :=
        spaceWalk parts li sufParticles (parts.getD li []) (joinSp (parts.take li))
      (⟨pyStripL (pyLower (normLatexL lastPart))⟩, ⟨initialsFrom firstPart⟩,
        prts.map (fun p => (⟨p⟩ : String)))

/-! ## The author-comparison section of `_compare_fields` (lines 809-978)

The section is modelled as a function of the citation-key author
fragment, the local author strings and the external author strings (the
provider branches of the source all reduce the external record to such a
list before extraction).  Each appended finding is represented by a
constructor of `Issue` carrying the interpolated data of the source's
message.  The Python `NameError` raised when the local variable
`first_author_mismatch` is read without having been assigned is modelled
by the `Except` error case. -/

/-- One finding appended by the author-comparison section, one
constructor per distinct message shape. -/
inductive Issue where
  | etAl : Issue
  | andOthersFew (realCount : Nat) : Issue
  | countMismatch (entryNames apiNames : String) : Issue
  | firstAuthorMismatch (entryName apiName : String) : Issue
  | firstInitialsMismatch (entryName apiName : String) : Issue
  | keyAuthorMismatch (keyFragment entryName : String) : Issue
  | orderMismatch (pos shouldBe : Nat) (entryName : String) : Issue
  | notInApi (pos : Nat) (entryName apiName : String) : Issue
  | initialsMismatchAt (pos : Nat) (entryName apiName : String) : Issue
deriving DecidableEq

/-- The finding of the `and others` hallucination heuristic. -/
def Issue.isHallucination : Issue → Bool
  | .andOthersFew _ => true
  | _ => false

/-- The author-count-mismatch finding. -/
def Issue.isCountMismatch : Issue → Bool
  | .countMismatch _ _ => true
  | _ => false

/-- The per-author record built at lines 829-880. -/
structure AuthorInfo where
  original : String
  lastname : String
  initials : String
  particles : List String
deriving DecidableEq, Inhabited

/-- Component extraction for one author string (lines 830-838). -/
def mkAuthorInfo (s : String) : AuthorInfo :=
  let c := extract_author_components s
  ⟨s, c.1, c.2.1, c.2.2⟩

/-- The first-author block (lines 893-940): runs only when the first
local surname is not `others`; returns the value of
`first_author_mismatch` (`none` when the block did not run, so the
variable stays unassigned) together with its findings. -/
def firstAuthorBlock (keyAuthor : Option String) (entryFirst apiFirst : AuthorInfo) :
    Option Bool × List Issue :=
  if entryFirst.lastname ≠ ("others") then
    let fam := entryFirst.lastname ≠ apiFirst.lastname
    let firstIssues : List Issue :=
      if fam then [.firstAuthorMismatch entryFirst.original apiFirst.original]
      else if entryFirst.initials ≠ ("") && apiFirst.initials ≠ ("") &&
          !authors_initials_match entryFirst.initials apiFirst.initials then
        [.firstInitialsMismatch entryFirst.original apiFirst.original]
      else []
    let keyIssues : List Issue :=
      match keyAuthor with
      | none => []
      | some k =>
        if k = ("") then []
        else
          let normalizedKeyAuthor := pyLower (normLatexL k.data)
          let entryFirstLastname := pyLower (normLatexL entryFirst.lastname.data)
          let entryFirstWithParticles :=
            if entryFirst.particles ≠ [] then
              (entryFirst.particles.map (fun p => pyLower (normLatexL p.data))).flatten ++
                entryFirstLastname
            else entryFirstLastname
          let vars0 := (normalize_with_transliterations entryFirst.original).map String.data
          let vars1 := if vars0.contains entryFirstLastname then vars0
            else vars0 ++ [entryFirstLastname]
          let vars2 := if vars1.contains entryFirstWithParticles then vars1
            else vars1 ++ [entryFirstWithParticles]
          let matchesAnyVariant :=
            normalizedKeyAuthor = entryFirstLastname ∨
            normalizedKeyAuthor = entryFirstWithParticles ∨
            vars2.contains normalizedKeyAuthor
          if ¬matchesAnyVariant then [.keyAuthorMismatch k entryFirst.original] else []
    (some fam, firstIssues ++ keyIssues)
  else (none, [])

/-- The body of the order-comparison loop (lines 952-978) at position
`i`, after the `first_author_mismatch` guard. -/
def loopBody (eInfo aInfo : List AuthorInfo) (i : Nat) : List Issue :=
  let ea := eInfo.getD i default
  let aa := aInfo.getD i default
  if ea.lastname = ("others") then []
  else if ea.lastname ≠ aa.lastname then
    match (List.range aInfo.length).find?
        (fun j => j ≠ i && (aInfo.getD j default).lastname == ea.lastname) with
    | some j => [.orderMismatch (i + 1) (j + 1) ea.original]
    | none => [.notInApi (i + 1) ea.original aa.original]
  else if ea.initials ≠ ("") && aa.initials ≠ ("") &&
      !authors_initials_match ea.initials aa.initials then
    [.initialsMismatchAt (i + 1) ea.original aa.original]
  else []

/-- The order-comparison loop (lines 942-978), iterating positions
`i, i+1, …` for `rem` steps.  At position `0` the source evaluates
`first_author_mismatch` before anything else; when the variable was
never assigned this raises `NameError`, modelled by the error case. -/
def orderLoop (eInfo aInfo : List AuthorInfo) (fam : Option Bool) :
    Nat → Nat → Except Unit (List Issue)
  | _, 0 => .ok []
  | i, rem + 1 =>
    let step : Except Unit (List Issue) :=
      if i = 0 then
        match fam with
        | none => .error ()
        | some true => .ok []
        | some false => .ok (loopBody eInfo aInfo i)
      else .ok (loopBody eInfo aInfo i)
    match step with
    | .error e => .error e
    | .ok is1 =>
      match orderLoop eInfo aInfo fam (i + 1) rem with
      | .error e => .error e
      | .ok rest => .ok (is1 ++ rest)

/-- The lowercased `' and '.join` of the local author strings
(lines 815-816). -/
def entryAuthorJoined (entryAuthors : List String) : List Char :=
  pyLower (List.intercalate (" and ").data (entryAuthors.map String.data))

/-- The `et al.` finding (lines 816-817). -/
def etAlIssuesOf (entryAuthors : List String) : List Issue :=
  if containsL ("et al.").data (entryAuthorJoined entryAuthors) then [.etAl] else []

/-- The `and others` hallucination heuristic (lines 822-826). -/
def hallucIssuesOf (entryAuthors : List String) : List Issue :=
  if containsL ("and others").data (entryAuthorJoined entryAuthors) then
    if entryAuthors.countP (fun p => !(pyLower p.data == ("others").data)) ≤ 5 then
      [.andOthersFew (entryAuthors.countP (fun p => !(pyLower p.data == ("others").data)))]
    else []
  else []

/-- Whether some local author has surname `others` (line 884). -/
def hasOthersOf (entryAuthors : List String) : Bool :=
  (entryAuthors.map mkAuthorInfo).any (fun a => a.lastname == ("others"))

/-- The author-count comparison (lines 882-888), skipped in the presence
of `others`. -/
def countIssuesOf (entryAuthors apiAuthors : List String) : List Issue :=
  if (apiAuthors.map mkAuthorInfo).length ≠ 0 &&
      entryAuthors.length ≠ (apiAuthors.map mkAuthorInfo).length &&
      !hasOthersOf entryAuthors then
    [.countMismatch
      (String.intercalate (" and ")
        ((entryAuthors.map mkAuthorInfo).map (fun a => a.original)))
      (String.intercalate (" and ")
        ((apiAuthors.map mkAuthorInfo).map (fun a => a.original)))]
  else []

/-- The author-comparison section of `_compare_fields` (lines 809-978):
`keyAuthor` is the author fragment of the citation key, `entryAuthors`
the local person strings, `apiAuthors` the external person strings. -/
def compareAuthorsSection (keyAuthor : Option String) (entryAuthors apiAuthors : List String) :
    Except Unit (List Issue) :=
  if entryAuthors.isEmpty then .ok []
  else
    if !(apiAuthors.map mkAuthorInfo).isEmpty && !(entryAuthors.map mkAuthorInfo).isEmpty then
      match orderLoop (entryAuthors.map mkAuthorInfo) (apiAuthors.map mkAuthorInfo)
          (firstAuthorBlock keyAuthor ((entryAuthors.map mkAuthorInfo).getD 0 default)
            ((apiAuthors.map mkAuthorInfo).getD 0 default)).1 0
          (min (entryAuthors.map mkAuthorInfo).length (apiAuthors.map mkAuthorInfo).length) with
      | .error e => .error e
      | .ok loopIssues =>
        .ok (etAlIssuesOf entryAuthors ++ hallucIssuesOf entryAuthors ++
          countIssuesOf entryAuthors apiAuthors ++
          (firstAuthorBlock keyAuthor ((entryAuthors.map mkAuthorInfo).getD 0 default)
            ((apiAuthors.map mkAuthorInfo).getD 0 default)).2 ++ loopIssues)
    else
      .ok (etAlIssuesOf entryAuthors ++ hallucIssuesOf entryAuthors ++
        countIssuesOf entryAuthors apiAuthors)

/-! ## Suggestion ranking (`_rank_suggestions`, lines 1879-1989) -/

/-- One candidate suggestion, with the dictionary fields the ranking
reads (`suggestion` is the candidate title). -/
structure Sug where
  suggestion : String
  authors : String
  year : String
  strategy : String
deriving DecidableEq, Inhabited

/-- Word character for the regex class `\w` on this program's
repertoire. -/
def pyIsWordChar (c : Char) : Bool :=
  isAsciiLetter c || c.isDigit || c == '_' || pyIsCased c

/-- The word set of a title after `re.sub` of `[^\w\s]` and `split()`
(a duplicate-free list standing for the Python set). -/
def cleanTitleWords (t : List Char) : List (List Char) :=
  (splitWs (t.filter (fun c => pyIsWordChar c || isPySpace c))).dedup

/-- The entry title as prepared at line 1910:
`strip` of surrounding braces, `strip`, `lower`. -/
def rankEntryTitle (raw : String) : List Char :=
  pyLower (pyStripL (stripSetL (['{', '}']) raw.data))

/-- Title similarity (lines 1917-1925): Jaccard index of the two word
sets, `0` when either title or either word set is empty. -/
def titleSimilarity (entryTitle : List Char) (s : Sug) : ℚ :=
  let sugTitle := pyLower s.suggestion.data
  if entryTitle.isEmpty || sugTitle.isEmpty then 0
  else
    let entryWords := cleanTitleWords entryTitle
    let sugWords := cleanTitleWords sugTitle
    if entryWords.isEmpty || sugWords.isEmpty then 0
    else
      let inter := (entryWords.filter (fun w => sugWords.contains w)).length
      let union := (entryWords ++ sugWords.filter (fun w => !(entryWords.contains w))).length
      mkRat inter union

/-- First-author agreement (lines 1927-1937). -/
def authorMatchesB (entryFirstLastname : Option String) (s : Sug) : Bool :=
  if s.authors ≠ ("") && s.authors ≠ ("N/A") then
    let firstSugAuthor := pyStripL ((splitOnChar ',' s.authors.data).getD 0 [])
    let sugFirstLastname := (extract_author_components ⟨firstSugAuthor⟩).1
    match entryFirstLastname with
    | some el => el ≠ ("") && sugFirstLastname ≠ ("") && el == sugFirstLastname
    | none => false
  else false

/-- Year agreement (lines 1939-1943). -/
def yearMatchesB (entryYear : Option String) (s : Sug) : Bool :=
  match entryYear with
  | some y => y ≠ ("") && s.year ≠ ("N/A") && y == s.year
  | none => false

/-- The scoring cascade (lines 1945-1981): the first matching band
applies, author/year bonuses only below the `0.6` band, then the
search-strategy bonus.  `int(ts * 100)` truncates; the similarity is
non-negative, so truncation is the floor. -/
def computeScore (ts : ℚ) (authorMatches yearMatches : Bool) (strategy : String) : ℤ :=
  let base : ℤ :=
    if ts > mkRat 8 10 then 200
    else if ts > mkRat 7 10 then 180
    else if ts > mkRat 6 10 ∧ authorMatches then 150
    else if ts > mkRat 6 10 ∧ yearMatches then 120
    else if ts > mkRat 6 10 then 110
    else if ts > mkRat 5 10 then 100
    else ⌊ts * 100⌋
  let authorBonus : ℤ := if authorMatches ∧ ts ≤ mkRat 6 10 then 30 else 0
  let yearBonus : ℤ := if yearMatches ∧ ts ≤ mkRat 6 10 then 20 else 0
  let strategyBonus : ℤ :=
    if strategy = ("author_year") then 5
    else if strategy = ("author_keywords") then 3
    else 0
  base + authorBonus + yearBonus + strategyBonus

/-- A scored candidate, the tuple `(score, sug, title_similarity)`. -/
structure Scored where
  score : ℤ
  sug : Sug
  ts : ℚ
deriving DecidableEq

/-- The descending sort key order of line 1986:
`x` before `y` when `x` has the larger `(score, similarity)` pair. -/
def keyGE (x y : Scored) : Prop :=
  y.score < x.score ∨ (x.score = y.score ∧ y.ts ≤ x.ts)

instance : DecidableRel keyGE := fun x y => by
  unfold keyGE
  infer_instance

instance : IsTotal Scored keyGE where
  total x y := by
    unfold keyGE
    rcases lt_trichotomy x.score y.score with h | h | h
    · exact Or.inr (Or.inl h)
    · rcases le_total x.ts y.ts with h2 | h2
      · exact Or.inr (Or.inr ⟨h.symm, h2⟩)
      · exact Or.inl (Or.inr ⟨h, h2⟩)
    · exact Or.inl (Or.inl h)

instance : IsTrans Scored keyGE where
  trans x y z hxy hyz := by
    unfold keyGE at *
    rcases hxy with h1 | ⟨h1, h1t⟩ <;> rcases hyz with h2 | ⟨h2, h2t⟩
    · exact Or.inl (h2.trans h1)
    · exact Or.inl (h2 ▸ h1)
    · exact Or.inl (h2.trans_eq h1.symm)
    · exact Or.inr ⟨h1.trans h2, h2t.trans h1t⟩

/-- The scored pool (lines 1912-1983): one `(score, sug, similarity)`
triple per candidate. -/
def rankScored (entryFirstAuthor : Option String) (entryYear : Option String)
    (entryTitleRaw : String) (pool : List Sug) : List Scored :=
  pool.map (fun s =>
    ({ score := computeScore (titleSimilarity (rankEntryTitle entryTitleRaw) s)
          (authorMatchesB (entryFirstAuthor.map (fun a => (extract_author_components a).1)) s)
          (yearMatchesB entryYear s) s.strategy,
       sug := s, ts := titleSimilarity (rankEntryTitle entryTitleRaw) s } : Scored))

/-- Python `_rank_suggestions` (lines 1879-1989), given the first local
author string, the local year and the raw local title.  `list.sort` with
`reverse=True` on the key `(score, similarity)` is the stable descending
sort, realised by insertion sort on `keyGE`. -/
def rankSuggestions (entryFirstAuthor : Option String) (entryYear : Option String)
    (entryTitleRaw : String) (pool : List Sug) : List Sug :=
  (List.insertionSort keyGE (rankScored entryFirstAuthor entryYear entryTitleRaw pool)).map
    (fun x => x.sug)

/-! ## Helper lemmas -/

theorem mem_of_isPfx {p s : List Char} (h : isPfx p s = true) : ∀ a ∈ p, a ∈ s := by
  induction p generalizing s with
  | nil => intro a ha; exact absurd ha (List.not_mem_nil a)
  | cons x xs ih =>
    cases s with
    | nil => simp [isPfx] at h
    | cons b bs =>
      simp only [isPfx, Bool.and_eq_true, beq_iff_eq] at h
      intro a ha
      rcases List.mem_cons.mp ha with rfl | ha
      · exact h.1 ▸ List.mem_cons_self _ _
      · exact List.mem_cons_of_mem _ (ih h.2 a ha)

theorem replaceAuxF_id {p : Char} {ps rep : List Char} (hp : '\\' ∈ p :: ps) :
    ∀ fuel s, '\\' ∉ s → replaceAuxF p ps rep fuel s = s := by
  intro fuel
  induction fuel with
  | zero => intro s _; rfl
  | succ n ih =>
    intro s hs
    cases s with
    | nil => rfl
    | cons c cs =>
      by_cases hpre : isPfx (p :: ps) (c :: cs) = true
      · exact absurd (mem_of_isPfx hpre '\\' hp) hs
      · simp only [replaceAuxF]
        rw [if_neg hpre, ih cs (fun h => hs (List.mem_cons_of_mem _ h))]

theorem replaceL_id {pat rep s : List Char} (hp : '\\' ∈ pat) (hs : '\\' ∉ s) :
    replaceL pat rep s = s := by
  cases pat with
  | nil => rfl
  | cons p ps => exact replaceAuxF_id hp s.length s hs

theorem foldReplace_id {tbl : List (List Char × List Char)} {s : List Char}
    (ht : ∀ pr ∈ tbl, '\\' ∈ pr.1) (hs : '\\' ∉ s) : foldReplace tbl s = s := by
  induction tbl with
  | nil => rfl
  | cons pr tl ih =>
    unfold foldReplace at *
    rw [List.foldl_cons, replaceL_id (ht pr (List.mem_cons_self _ _)) hs]
    exact ih (fun q hq => ht q (List.mem_cons_of_mem _ hq))

theorem subGenF_id {tr : Char → List Char → Option (Char × Nat)}
    (htr : ∀ c cs, '\\' ∉ (c :: cs) → tr c cs = none) :
    ∀ fuel s, '\\' ∉ s → subGenF tr fuel s = s := by
  intro fuel
  induction fuel with
  | zero => intro s _; rfl
  | succ n ih =>
    intro s hs
    cases s with
    | nil => rfl
    | cons c cs =>
      simp only [subGenF, htr c cs hs]
      rw [ih cs (fun h => hs (List.mem_cons_of_mem _ h))]

theorem tryAcc1_none {a c : Char} {cs : List Char} (h : '\\' ∉ (c :: cs)) :
    tryAcc1 a c cs = none := by
  unfold tryAcc1
  split
  · split
    · exfalso
      apply h
      simp
    · rfl
  · rfl

theorem tryAcc2_none {a c : Char} {cs : List Char} (h : '\\' ∉ (c :: cs)) :
    tryAcc2 a c cs = none := by
  unfold tryAcc2
  split
  · split
    · exfalso
      apply h
      simp
    · rfl
  · rfl

theorem tryAcc3_none {a c : Char} {cs : List Char} (h : '\\' ∉ (c :: cs)) :
    tryAcc3 a c cs = none := by
  unfold tryAcc3
  split
  · rename_i hc
    exact absurd (by rw [beq_iff_eq] at hc; rw [hc]; exact List.mem_cons_self _ _) h
  · rfl

theorem tryAcc4_none {a c : Char} {cs : List Char} (h : '\\' ∉ (c :: cs)) :
    tryAcc4 a c cs = none := by
  unfold tryAcc4
  split
  · rename_i hc
    exact absurd (by rw [beq_iff_eq] at hc; rw [hc]; exact List.mem_cons_self _ _) h
  · rfl

theorem subG_id {tr : Char → List Char → Option (Char × Nat)}
    (htr : ∀ c cs, '\\' ∉ (c :: cs) → tr c cs = none) {s : List Char} (hs : '\\' ∉ s) :
    subG tr s = s :=
  subGenF_id htr s.length s hs

theorem applyAccentCmd_id {a : Char} {s : List Char} (hs : '\\' ∉ s) :
    applyAccentCmd a s = s := by
  unfold applyAccentCmd
  rw [subG_id (fun c cs h => tryAcc1_none h) hs, subG_id (fun c cs h => tryAcc2_none h) hs,
    subG_id (fun c cs h => tryAcc3_none h) hs, subG_id (fun c cs h => tryAcc4_none h) hs]

theorem applyAccents_id {s : List Char} (hs : '\\' ∉ s) : applyAccents s = s := by
  unfold applyAccents
  have : ∀ (l : List Char), l.foldl (fun acc a => applyAccentCmd a acc) s = s := by
    intro l
    induction l with
    | nil => rfl
    | cons a tl ih => rw [List.foldl_cons, applyAccentCmd_id hs]; exact ih
  exact this accentCmds

theorem normLatexL_of_no_backslash {x : List Char} (hx : '\\' ∉ x) :
    normLatexL x = removePunctL (removeAccentsL (removeBraces x)) := by
  unfold normLatexL
  rw [foldReplace_id (by decide) hx, foldReplace_id (by decide) hx, applyAccents_id hx]

theorem flatMap_eq_self {f : Char → List Char} {l : List Char} (h : ∀ a ∈ l, f a = [a]) :
    l.flatMap f = l := by
  induction l with
  | nil => rfl
  | cons a tl ih =>
    rw [List.flatMap_cons, h a (List.mem_cons_self _ _)]
    simp only [List.singleton_append, List.cons_inj_right]
    exact ih (fun b hb => h b (List.mem_cons_of_mem _ hb))

/-- Characters untouched by every stage of `normLatexL`. -/
def goodChar (c : Char) : Bool :=
  !(c == '\\') && !(c == '{') && !(c == '}') && !(c == '-') && !(c == '\'') &&
    !(c == Char.ofNat 96) && (specialUnicodeTable.lookup c).isNone &&
    !(combiningMarksList.contains c) && (accentDecompTable.lookup c).isNone

theorem lookup_mem {α β : Type} [BEq α] [LawfulBEq α] {l : List (α × β)} {a : α} {b : β}
    (h : l.lookup a = some b) : (a, b) ∈ l := by
  induction l with
  | nil => simp [List.lookup] at h
  | cons kv tl ih =>
    rw [List.lookup] at h
    split at h
    · rename_i heq
      cases h
      rcases kv with ⟨k, v⟩
      have : a = k := eq_of_beq heq
      subst this
      exact List.mem_cons_self _ _
    · exact List.mem_cons_of_mem _ (ih h)

theorem specialUniChar_good {c c' : Char} (h : c' ∈ specialUniChar c) :
    (specialUnicodeTable.lookup c = none ∧ c' = c) ∨ goodChar c' = true := by
  unfold specialUniChar at h
  cases hl : specialUnicodeTable.lookup c with
  | none =>
    rw [hl] at h
    simp only [Option.getD_none, List.mem_singleton] at h
    exact Or.inl ⟨rfl, h⟩
  | some v =>
    rw [hl] at h
    simp only [Option.getD_some] at h
    right
    have hm : (c, v) ∈ specialUnicodeTable := lookup_mem hl
    have hall : specialUnicodeTable.all (fun pr => pr.2.all goodChar) = true := by decide
    rw [List.all_eq_true] at hall
    have := hall (c, v) hm
    rw [List.all_eq_true] at this
    exact this c' h

theorem stripMark_good {c c' : Char} (h : c' ∈ stripMark c) :
    (combiningMarksList.contains c = false ∧ accentDecompTable.lookup c = none ∧ c' = c) ∨
      goodChar c' = true := by
  unfold stripMark at h
  split at h
  · exact absurd h (List.not_mem_nil c')
  · rename_i hmk
    cases hl : accentDecompTable.lookup c with
    | none =>
      rw [hl] at h
      simp only [List.mem_singleton] at h
      exact Or.inl ⟨by simpa using hmk, rfl, h⟩
    | some b =>
      rw [hl] at h
      simp only [List.mem_singleton] at h
      right
      rw [h]
      have hm : (c, b) ∈ accentDecompTable := lookup_mem hl
      have hall : accentDecompTable.all (fun pr => goodChar pr.2) = true := by decide
      rw [List.all_eq_true] at hall
      exact hall (c, b) hm

theorem normLatex_chars_good {x : List Char} (hx : '\\' ∉ x) :
    ∀ c ∈ normLatexL x, goodChar c = true := by
  intro c hc
  rw [normLatexL_of_no_backslash hx] at hc
  unfold removePunctL at hc
  rw [List.mem_filter] at hc
  obtain ⟨hc, hpunct⟩ := hc
  unfold removeAccentsL at hc
  rw [List.mem_flatMap] at hc
  obtain ⟨d, hd, hcd⟩ := hc
  rcases stripMark_good hcd with ⟨hmk, hlk, hcd_eq⟩ | hgood
  · subst hcd_eq
    rw [List.mem_flatMap] at hd
    obtain ⟨e, he, hde⟩ := hd
    rcases specialUniChar_good hde with ⟨hlk2, hde_eq⟩ | hgood2
    · subst hde_eq
      unfold removeBraces at he
      rw [List.mem_filter] at he
      obtain ⟨hex, hbrace⟩ := he
      have hbs : (c == '\\') = false := by
        cases hb : c == '\\'
        · rfl
        · exact absurd (eq_of_beq hb ▸ hex) hx
      have hbr : (c == '{') = false ∧ (c == '}') = false := by
        simp only [Bool.not_eq_true', Bool.or_eq_false_iff] at hbrace
        exact hbrace
      have hpu : (c == '-') = false ∧ (c == '\'') = false ∧ (c == Char.ofNat 96) = false := by
        simp only [Bool.not_eq_true', Bool.or_eq_false_iff] at hpunct
        exact ⟨hpunct.1.1, hpunct.1.2, hpunct.2⟩
      unfold goodChar
      rw [hbs, hbr.1, hbr.2, hpu.1, hpu.2.1, hpu.2.2, hlk2, hmk, hlk]
      rfl
    · exact hgood2
  · exact hgood

theorem goodChar_spec {c : Char} (h : goodChar c = true) :
    c ≠ '\\' ∧ (c == '{' || c == '}') = false ∧
      (c == '-' || c == '\'' || c == Char.ofNat 96) = false ∧
      specialUnicodeTable.lookup c = none ∧ combiningMarksList.contains c = false ∧
      accentDecompTable.lookup c = none := by
  unfold goodChar at h
  simp only [Bool.and_eq_true, Bool.not_eq_true', Option.isNone_iff_eq_none] at h
  obtain ⟨⟨⟨⟨⟨⟨⟨⟨h1, h2⟩, h3⟩, h4⟩, h5⟩, h6⟩, h7⟩, h8⟩, h9⟩ := h
  refine ⟨by simpa using h1, by rw [h2, h3]; rfl, by rw [h4, h5, h6]; rfl, h7, h8, h9⟩

theorem normLatexL_id_of_good {y : List Char} (hy : ∀ c ∈ y, goodChar c = true) :
    normLatexL y = y := by
  have hbs : '\\' ∉ y := fun h => ((goodChar_spec (hy _ h)).1 rfl)
  rw [normLatexL_of_no_backslash hbs]
  have hbr : removeBraces y = y := by
    unfold removeBraces
    rw [List.filter_eq_self]
    intro c hc
    rw [(goodChar_spec (hy c hc)).2.1]
    rfl
  rw [hbr]
  have hacc : removeAccentsL y = y := by
    unfold removeAccentsL
    have h1 : y.flatMap specialUniChar = y := flatMap_eq_self (fun c hc => by
      unfold specialUniChar
      rw [(goodChar_spec (hy c hc)).2.2.2.1]
      rfl)
    rw [h1]
    exact flatMap_eq_self (fun c hc => by
      unfold stripMark
      rw [(goodChar_spec (hy c hc)).2.2.2.2.1, (goodChar_spec (hy c hc)).2.2.2.2.2]
      rfl)
  rw [hacc]
  unfold removePunctL
  rw [List.filter_eq_self]
  intro c hc
  rw [(goodChar_spec (hy c hc)).2.2.1]
  rfl

theorem normalize_latex_text_data (s : String) :
    (normalize_latex_text s).data = normLatexL s.data := by
  unfold normalize_latex_text
  generalize normLatexL s.data = l
  rfl

/-! ## Claim C4: idempotence of `normalize_latex_text` -/

/-- Claim C4, counterexample: `normalize_latex_text` is not idempotent.
On the input `\-o` (a backslash, a hyphen, `o`) the first pass deletes
the hyphen, producing the LaTeX macro `\o`, which the second pass
rewrites to `o`. -/
theorem normalize_latex_text_not_idempotent :
    normalize_latex_text (normalize_latex_text (String.mk ['\\', '-', 'o'])) ≠
      normalize_latex_text (String.mk ['\\', '-', 'o']) := by
  decide

/-- Claim C4, amended: `normalize_latex_text` is idempotent on every
input that contains no backslash (the counterexample forces exactly this
restriction: late punctuation removal can splice characters into a new
LaTeX macro only across a backslash). -/
theorem normalize_latex_text_idempotent_of_no_backslash (s : String)
    (hs : '\\' ∉ s.data) :
    normalize_latex_text (normalize_latex_text s) = normalize_latex_text s := by
  apply String.ext
  rw [normalize_latex_text_data, normalize_latex_text_data]
  exact normLatexL_id_of_good (normLatex_chars_good hs)

/-- Witness for the amended claim C4 at the concrete input `Müller`. -/
theorem normalize_latex_text_idempotent_witness :
    '\\' ∉ ("Müller").data ∧
      normalize_latex_text (normalize_latex_text ("Müller")) = normalize_latex_text ("Müller") :=
  ⟨by decide, normalize_latex_text_idempotent_of_no_backslash ("Müller") (by decide)⟩

/-! ## Claim C5: LaTeX and Unicode accent forms normalize equally -/

/-- Accented Latin letters with a standard LaTeX accent command: the
LaTeX-encoded form paired with the precomposed Unicode form. -/
def latexAccentPairs : List (List Char × List Char) :=
  [ (['{', '\\', '\'', 'e', '}'], ['é']),
    (['{', '\\', Char.ofNat 96, 'e', '}'], ['è']),
    (['{', '\\', '^', 'e', '}'], ['ê']),
    (['{', '\\', '"', 'e', '}'], ['ë']),
    (['{', '\\', '\'', 'a', '}'], ['á']),
    (['{', '\\', '"', 'a', '}'], ['ä']),
    (['{', '\\', '~', 'n', '}'], ['ñ']),
    (['{', '\\', '~', 'o', '}'], ['õ']),
    (['{', '\\', '"', 'o', '}'], ['ö']),
    (['{', '\\', '"', 'u', '}'], ['ü']),
    (['{', '\\', '\'', 'i', '}'], ['í']),
    (['{', '\\', '\'', 'u', '}'], ['ú']),
    (['{', '\\', '\'', 'y', '}'], ['ý']),
    (['{', '\\', '=', 'o', '}'], ['ō']),
    (['{', '\\', '.', 'z', '}'], ['ż']),
    (['{', '\\', 'u', 'e', '}'], ['ĕ']),
    (['{', '\\', 'v', 's', '}'], ['š']),
    (['{', '\\', 'v', 'z', '}'], ['ž']),
    (['{', '\\', 'H', 'o', '}'], ['ő']),
    (['{', '\\', 'c', 'c', '}'], ['ç']),
    (['{', '\\', 'k', 'a', '}'], ['ą']),
    (['{', '\\', 'r', 'a', '}'], ['å']),
    (['{', '\\', '\'', '{', 'e', '}', '}'], ['é']),
    (['\\', '\'', 'e'], ['é']),
    (['{', '\\', '"', 'U', '}'], ['Ü']),
    (['{', '\\', '\'', 'A', '}'], ['Á']) ]

/-- Claim C5, counterexample: `normalize_latex_text` is case-preserving,
so `normalize_latex_text "Müller"` is `"Muller"`, not the lowercase
string `"muller"` the claim equates it with. -/
theorem normalize_latex_text_muller_case :
    normalize_latex_text ("Müller") ≠ ("muller") := by
  decide

/-- Claim C5, amended: for every accented Latin letter of the table with
a standard LaTeX accent command the LaTeX form and the precomposed
Unicode form normalize identically; in particular the two encodings of
`Müller` both normalize to the case-preserved `"Muller"`, whose
lowercasing is `"muller"`. -/
theorem normalize_latex_accent_pairs :
    latexAccentPairs.all (fun pr => normLatexL pr.1 == normLatexL pr.2) = true ∧
      normalize_latex_text ("M\x7b\\\"u\x7dller") = ("Muller") ∧
      normalize_latex_text ("Müller") = ("Muller") ∧
      pyLower ("Muller").data = ("muller").data := by
  refine ⟨by decide, by decide, by decide, by decide⟩

/-! ## Claim C3: suffix handling in the space-separated branch -/

/-- Claim C3 (code bug): `"John von Neumann"` parses as claimed, but on
`"John von Neumann Jr."` the particle walk resets the surname to the
absolute last token `parts[-1]` — the already-stripped suffix — so the
code returns surname `"jr."` instead of `"neumann"`. -/
theorem extract_author_components_suffix_bug :
    extract_author_components ("John von Neumann") = (("neumann"), ("J"), [("von")]) ∧
      extract_author_components ("John von Neumann Jr.") =
        (("jr."), ("J"), [("von"), ("jr")]) := by
  refine ⟨by decide, by decide⟩

/-! ## Claim C1: degraded inputs and the author checks -/

/-- Claim C1 (code bug): empty and single-token names do yield empty or
partial components, but the author checks do not run to completion on
every pair: when the first local author is the literal `"others"` and
the external list is non-empty, line 949 reads the never-assigned local
variable `first_author_mismatch` and Python raises `NameError`, modelled
here by the `Except.error` result. -/
theorem compare_authors_others_first_raises :
    extract_author_components ("") = (("" : String), ("" : String), ([] : List String)) ∧
      extract_author_components ("Smith") = (("smith"), (""), ([] : List String)) ∧
      compareAuthorsSection none [("others")] [("Brown, A.")] = .error () := by
  refine ⟨by decide, by decide, by rfl⟩

/-! ## Claim C6: transliteration variant list -/

/-- Claim C6 (code bug): the computed variant list for
`"Engström, David"`.  The surname-only base variant is appended second
and the transliterated full form only third, while the function's own
docstring (and the claim) put the transliterated full form second. -/
theorem normalize_with_transliterations_engstrom :
    normalize_with_transliterations ("Engström, David") =
      [("engstrom, david"), ("engstrom"), ("engstroem, david"), ("engstroem")] := by
  decide

/-! ## Claim C10: the comma branch keeps a trailing suffix in the surname -/

theorem splitRunsAux_good {p : Char → Bool} :
    ∀ (s acc : List Char), (∀ c ∈ acc, p c = false) →
      ∀ t ∈ splitRunsAux p s acc, t ≠ [] ∧ ∀ c ∈ t, p c = false := by
  intro s
  induction s with
  | nil =>
    intro acc hacc t ht
    simp only [splitRunsAux] at ht
    split at ht
    · exact absurd ht (List.not_mem_nil t)
    · rename_i hemp
      rw [List.mem_singleton] at ht
      subst ht
      constructor
      · intro h
        rw [List.reverse_eq_nil_iff] at h
        rw [h] at hemp
        exact hemp rfl
      · intro c hc
        exact hacc c (List.mem_reverse.mp hc)
  | cons c cs ih =>
    intro acc hacc t ht
    simp only [splitRunsAux] at ht
    split at ht
    · split at ht
      · exact ih [] (by intro d hd; exact absurd hd (List.not_mem_nil d)) t ht
      · rename_i hemp
        rcases List.mem_cons.mp ht with rfl | ht
        · constructor
          · intro h
            rw [List.reverse_eq_nil_iff] at h
            rw [h] at hemp
            exact hemp rfl
          · intro d hd
            exact hacc d (List.mem_reverse.mp hd)
        · exact ih [] (by intro d hd; exact absurd hd (List.not_mem_nil d)) t ht
    · rename_i hpc
      refine ih (c :: acc) ?_ t ht
      intro d hd
      rcases List.mem_cons.mp hd with rfl | hd
      · simpa using hpc
      · exact hacc d hd

theorem splitWs_good {s : List Char} :
    ∀ t ∈ splitWs s, t ≠ [] ∧ ∀ c ∈ t, isPySpace c = false := by
  intro t ht
  exact splitRunsAux_good s [] (by intro d hd; exact absurd hd (List.not_mem_nil d)) t ht

theorem splitRunsAux_append {p : Char → Bool} :
    ∀ (t s acc : List Char), (∀ c ∈ t, p c = false) →
      splitRunsAux p (t ++ s) acc = splitRunsAux p s (t.reverse ++ acc) := by
  intro t
  induction t with
  | nil => intro s acc _; simp
  | cons c t' ih =>
    intro s acc hgood
    have hc : p c = false := hgood c (List.mem_cons_self _ _)
    show splitRunsAux p (c :: (t' ++ s)) acc = _
    rw [splitRunsAux, hc]
    simp only [Bool.false_eq_true, if_false]
    rw [ih s (c :: acc) (fun d hd => hgood d (List.mem_cons_of_mem _ hd))]
    simp

theorem joinSp_cons_cons (a b : List Char) (l : List (List Char)) :
    joinSp (a :: b :: l) = a ++ ' ' :: joinSp (b :: l) := by
  simp [joinSp, List.intercalate, List.intersperse]

theorem splitWs_joinSp :
    ∀ (toks : List (List Char)), toks ≠ [] →
      (∀ t ∈ toks, t ≠ [] ∧ ∀ c ∈ t, isPySpace c = false) →
      splitWs (joinSp toks) = toks := by
  intro toks
  induction toks with
  | nil => intro h; exact absurd rfl h
  | cons t rest ih =>
    intro _ hgood
    have hne : t ≠ [] := (hgood t (List.mem_cons_self _ _)).1
    have htg : ∀ c ∈ t, isPySpace c = false := (hgood t (List.mem_cons_self _ _)).2
    cases rest with
    | nil =>
      have hj : joinSp [t] = t := by simp [joinSp, List.intercalate, List.intersperse]
      rw [hj]
      unfold splitWs splitRuns
      have happ := @splitRunsAux_append isPySpace t [] [] htg
      rw [List.append_nil] at happ
      rw [happ]
      rw [splitRunsAux]
      rw [if_neg ?_]
      · simp
      · simp only [List.append_nil, List.isEmpty_eq_true, List.reverse_eq_nil_iff]
        exact hne
    | cons t2 rest2 =>
      rw [joinSp_cons_cons]
      unfold splitWs splitRuns
      have happ := @splitRunsAux_append isPySpace t (' ' :: joinSp (t2 :: rest2)) [] htg
      rw [List.append_nil] at happ
      rw [happ]
      rw [splitRunsAux]
      have hsp : isPySpace ' ' = true := by decide
      rw [hsp]
      simp only [if_true]
      rw [if_neg ?_]
      · rw [List.reverse_reverse]
        have hrec := ih (by simp) (fun u hu => hgood u (List.mem_cons_of_mem _ hu))
        unfold splitWs splitRuns at hrec
        rw [hrec]
      · simp only [List.isEmpty_eq_true, List.reverse_eq_nil_iff]
        exact hne

theorem getLast?_drop_of_lt {α : Type} :
    ∀ (l : List α) (k : Nat), k < l.length → (l.drop k).getLast? = l.getLast? := by
  intro l
  induction l with
  | nil => intro k hk; simp at hk
  | cons a t ih =>
    intro k hk
    cases k with
    | zero => rfl
    | succ k2 =>
      simp only [List.length_cons, Nat.succ_lt_succ_iff] at hk
      rw [List.drop_succ_cons, ih k2 hk]
      have ht : t ≠ [] := by
        intro h
        rw [h] at hk
        exact Nat.not_lt_zero _ hk
      cases t with
      | nil => exact absurd rfl ht
      | cons b t2 => simp [List.getLast?]

theorem commaScan_particles {ws : List (List Char)} {lp : List Char} :
    ∀ q ∈ (commaScan ws lp).1, nameParticles.contains q = true := by
  intro q hq
  unfold commaScan at hq
  by_cases h1 : ws.length > 1
  · rw [if_pos h1] at hq
    by_cases h2 : (commaScanRun ws).length > 0
    · rw [if_pos h2] at hq
      simp only [List.mem_map] at hq
      obtain ⟨w, hw, rfl⟩ := hq
      unfold commaScanRun at hw
      simpa using List.mem_takeWhile_imp hw
    · rw [if_neg h2] at hq
      exact absurd hq (List.not_mem_nil q)
  · rw [if_neg h1] at hq
    exact absurd hq (List.not_mem_nil q)

theorem commaScan_keeps_last {last0 : List Char} :
    (splitWs (commaScan (splitWs last0) last0).2).getLast? = (splitWs last0).getLast? := by
  have hgood : ∀ t ∈ splitWs last0, t ≠ [] ∧ ∀ c ∈ t, isPySpace c = false :=
    fun t ht => splitWs_good t ht
  unfold commaScan
  by_cases h1 : (splitWs last0).length > 1
  · rw [if_pos h1]
    by_cases h2 : (commaScanRun (splitWs last0)).length > 0
    · rw [if_pos h2]
      simp only
      set k := (commaScanRun (splitWs last0)).length with hk
      have hk_le : k ≤ (splitWs last0).length - 1 := by
        calc k ≤ ((splitWs last0).take ((splitWs last0).length - 1)).length :=
              (List.takeWhile_sublist _).length_le
          _ ≤ (splitWs last0).length - 1 := by
              rw [List.length_take]; exact Nat.min_le_left _ _
      have hk_lt : k < (splitWs last0).length := by omega
      have hdropne : (splitWs last0).drop k ≠ [] := by
        intro h
        have hlen := List.length_drop k (splitWs last0)
        rw [h] at hlen
        simp at hlen
        omega
      have hdropgood : ∀ t ∈ (splitWs last0).drop k,
          t ≠ [] ∧ ∀ c ∈ t, isPySpace c = false :=
        fun t ht => hgood t (List.mem_of_mem_drop ht)
      rw [splitWs_joinSp ((splitWs last0).drop k) hdropne hdropgood]
      exact getLast?_drop_of_lt (splitWs last0) k hk_lt
    · rw [if_neg h2]
  · rw [if_neg h1]

/-- Claim C10: in the comma branch, a generational suffix ending the
surname side is never recorded as a particle (every recorded particle is
a member of the particle set, which is disjoint from the suffix set) and
the final token — the suffix — remains the last token of the surname
text; concretely, `"Smith Jr., John"` yields surname `"smith jr."`,
initials `"J"` and no particles. -/
theorem comma_branch_keeps_suffix (last0 : List Char)
    (hne : splitWs last0 ≠ [])
    (_hsuf : nameSuffixes.contains
      (rstripL (['.']) (pyLower ((splitWs last0).getLast hne))) = true) :
    (∀ q ∈ (commaScan (splitWs last0) last0).1, nameParticles.contains q = true) ∧
      nameParticles.all (fun w => !(nameSuffixes.contains w)) = true ∧
      (splitWs (commaScan (splitWs last0) last0).2).getLast? =
        some ((splitWs last0).getLast hne) ∧
      extract_author_components ("Smith Jr., John") =
        (("smith jr."), ("J"), ([] : List String)) := by
  refine ⟨commaScan_particles, by decide, ?_, by decide⟩
  rw [commaScan_keeps_last]
  exact List.getLast?_eq_getLast (splitWs last0) hne

/-- Witness for claim C10 at the surname side `"Smith Jr."`. -/
theorem comma_branch_keeps_suffix_witness :
    splitWs ("Smith Jr.").data ≠ [] ∧
      extract_author_components ("Smith Jr., John") =
        (("smith jr."), ("J"), ([] : List String)) :=
  ⟨by decide, (comma_branch_keeps_suffix ("Smith Jr.").data (by decide) (by decide)).2.2.2⟩

/-! ## Claim C9: citation key components -/

/-- The year regex matches at position `i` of the key. -/
def hasYearAt (s : List Char) (i : Nat) : Bool :=
  isYearStart (s.drop i)

theorem findYearSplit_none_iff {s : List Char} :
    findYearSplit s = none ↔ ∀ i, hasYearAt s i = false := by
  induction s with
  | nil =>
    simp only [findYearSplit, true_iff]
    intro i
    simp [hasYearAt, isYearStart]
  | cons c cs ih =>
    by_cases hY : isYearStart (c :: cs) = true
    · constructor
      · intro h
        rw [findYearSplit, if_pos hY] at h
        exact absurd h (by simp)
      · intro h
        have := h 0
        rw [hasYearAt, List.drop_zero, hY] at this
        exact absurd this (by simp)
    · rw [findYearSplit, if_neg hY]
      constructor
      · intro h i
        have hcs : findYearSplit cs = none := by
          rcases hfy : findYearSplit cs with _ | ⟨pre, y⟩
          · rfl
          · rw [hfy] at h
            exact absurd h (by simp)
        cases i with
        | zero =>
          rw [hasYearAt, List.drop_zero]
          exact Bool.not_eq_true _ ▸ by simpa using hY
        | succ i2 =>
          rw [hasYearAt, List.drop_succ_cons]
          exact ih.mp hcs i2
      · intro h
        have hcs : findYearSplit cs = none := ih.mpr (by
          intro i
          have := h (i + 1)
          rwa [hasYearAt, List.drop_succ_cons] at this)
        rw [hcs]

theorem findYearSplit_some {s pre y : List Char} (h : findYearSplit s = some (pre, y)) :
    ∃ i, pre = s.take i ∧ y = (s.drop i).take 4 ∧ hasYearAt s i = true ∧
      ∀ j < i, hasYearAt s j = false := by
  induction s generalizing pre y with
  | nil => simp [findYearSplit] at h
  | cons c cs ih =>
    by_cases hY : isYearStart (c :: cs) = true
    · rw [findYearSplit, if_pos hY] at h
      simp only [Option.some_inj, Prod.mk.injEq] at h
      refine ⟨0, h.1.symm, by rw [List.drop_zero]; exact h.2.symm, ?_, ?_⟩
      · rw [hasYearAt, List.drop_zero]
        exact hY
      · intro j hj
        exact absurd hj (Nat.not_lt_zero j)
    · rw [findYearSplit, if_neg hY] at h
      rcases hfy : findYearSplit cs with _ | ⟨pre2, y2⟩
      · rw [hfy] at h
        exact absurd h (by simp)
      · rw [hfy] at h
        simp only [Option.some_inj, Prod.mk.injEq] at h
        obtain ⟨i2, hpre, hy, hat, hmin⟩ := ih hfy
        refine ⟨i2 + 1, ?_, ?_, ?_, ?_⟩
        · rw [List.take_succ_cons, ← h.1, hpre]
        · rw [List.drop_succ_cons, ← h.2, hy]
        · rw [hasYearAt, List.drop_succ_cons]
          exact hat
        · intro j hj
          cases j with
          | zero =>
            rw [hasYearAt, List.drop_zero]
            exact Bool.not_eq_true _ ▸ by simpa using hY
          | succ j2 =>
            rw [hasYearAt, List.drop_succ_cons]
            exact hmin j2 (Nat.lt_of_succ_lt_succ hj)

/-- Claim C9: `extract_citation_key_components` returns `(none, none)`
exactly when the key has no 4-digit year substring in 1900-2099 or when
the text before the first such match is empty after trimming trailing
underscores and hyphens; otherwise it returns the normalized lowercased
author fragment before the first match together with the matched year,
as on `"Smith2020quantum"` and `"NoYearHere"`. -/
theorem extract_citation_key_spec (key : String) (i : Nat) :
    (extract_citation_key_components key = (none, none) ↔
      ((∀ n, hasYearAt key.data n = false) ∨
        (∃ n, hasYearAt key.data n = true ∧ (∀ j < n, hasYearAt key.data j = false) ∧
          rstripL (['_', '-']) (key.data.take n) = []))) ∧
    (hasYearAt key.data i = true → (∀ j < i, hasYearAt key.data j = false) →
      rstripL (['_', '-']) (key.data.take i) ≠ [] →
      extract_citation_key_components key =
        (some ⟨pyLower (normLatexL (rstripL (['_', '-']) (key.data.take i)))⟩,
          some ⟨(key.data.drop i).take 4⟩)) ∧
    extract_citation_key_components ("Smith2020quantum") = (some ("smith"), some ("2020")) ∧
    extract_citation_key_components ("NoYearHere") = ((none : Option String), (none : Option String)) := by
  refine ⟨?_, ?_, by decide, by decide⟩
  · rcases hfy : findYearSplit key.data with _ | ⟨pre, y⟩
    · simp only [extract_citation_key_components, hfy, true_iff]
      exact Or.inl (findYearSplit_none_iff.mp hfy)
    · obtain ⟨n0, hpre, hy, hat, hmin⟩ := findYearSplit_some hfy
      by_cases hemp : (rstripL (['_', '-']) pre).isEmpty = true
      · simp only [extract_citation_key_components, hfy, hemp, if_true, true_iff]
        refine Or.inr ⟨n0, hat, hmin, ?_⟩
        rw [← hpre]
        exact List.isEmpty_eq_true.mp hemp
      · simp only [extract_citation_key_components, hfy, hemp, if_false]
        constructor
        · intro h
          exact absurd h (by simp)
        · intro h
          rcases h with h | ⟨n, hn, hnmin, hnemp⟩
          · rw [h n0] at hat
            exact absurd hat (by simp)
          · have hne : n = n0 := by
              rcases Nat.lt_trichotomy n n0 with hlt | heq | hgt
              · rw [hmin n hlt] at hn
                exact absurd hn (by simp)
              · exact heq
              · rw [hnmin n0 hgt] at hat
                exact absurd hat (by simp)
            subst hne
            rw [← hpre] at hnemp
            rw [hnemp] at hemp
            simp at hemp
  · intro hat hmin hnemp
    rcases hfy : findYearSplit key.data with _ | ⟨pre, y⟩
    · rw [findYearSplit_none_iff.mp hfy i] at hat
      exact absurd hat (by simp)
    · obtain ⟨n0, hpre, hy, hat0, hmin0⟩ := findYearSplit_some hfy
      have hne : i = n0 := by
        rcases Nat.lt_trichotomy i n0 with hlt | heq | hgt
        · rw [hmin0 i hlt] at hat
          exact absurd hat (by simp)
        · exact heq
        · rw [hmin n0 hgt] at hat0
          exact absurd hat0 (by simp)
      subst hne
      have hemp : (rstripL (['_', '-']) pre).isEmpty = false := by
        rcases hv : (rstripL (['_', '-']) pre).isEmpty with _ | _
        · rfl
        · rw [← hpre] at hnemp
          exact absurd (List.isEmpty_eq_true.mp hv) hnemp
      rw [hpre] at hemp
      have hemp2 : ¬((rstripL (['_', '-']) (List.take i key.data)).isEmpty = true) := by
        rw [hemp]
        simp
      simp only [extract_citation_key_components, hfy, hpre, hy]
      rw [if_neg hemp2]

/-- Witness for claim C9 at the key `"ab1999"` with first match at
position `2`. -/
theorem extract_citation_key_spec_witness :
    hasYearAt ("ab1999").data 2 = true ∧
      extract_citation_key_components ("ab1999") =
        (some ⟨pyLower (normLatexL (rstripL (['_', '-']) (("ab1999").data.take 2)))⟩,
          some ⟨(("ab1999").data.drop 2).take 4⟩) :=
  ⟨by decide, (extract_citation_key_spec ("ab1999") 2).2.1 (by decide) (by decide) (by decide)⟩

/-! ## Claim C7: `and others` with a truncated local list -/

theorem loopBody_kinds {eInfo aInfo : List AuthorInfo} {i : Nat} :
    ∀ x ∈ loopBody eInfo aInfo i,
      Issue.isHallucination x = false ∧ Issue.isCountMismatch x = false := by
  intro x hx
  simp only [loopBody] at hx
  repeat' split at hx
  all_goals
    first
      | exact absurd hx (List.not_mem_nil x)
      | (rw [List.mem_singleton] at hx
         subst hx
         exact ⟨rfl, rfl⟩)

theorem firstAuthorBlock_kinds {ka : Option String} {e0 a0 : AuthorInfo} :
    ∀ x ∈ (firstAuthorBlock ka e0 a0).2,
      Issue.isHallucination x = false ∧ Issue.isCountMismatch x = false := by
  intro x hx
  simp only [firstAuthorBlock] at hx
  split at hx
  · simp only [List.mem_append] at hx
    rcases hx with hx | hx <;>
      (repeat' split at hx) <;>
      first
        | exact absurd hx (List.not_mem_nil x)
        | (rw [List.mem_singleton] at hx
           subst hx
           exact ⟨rfl, rfl⟩)
  · exact absurd hx (List.not_mem_nil x)

theorem orderLoop_step (eInfo aInfo : List AuthorInfo) (fam : Option Bool) (i rem : Nat) :
    orderLoop eInfo aInfo fam i (rem + 1) =
      (match (if i = 0 then
          match fam with
          | none => Except.error ()
          | some true => Except.ok []
          | some false => Except.ok (loopBody eInfo aInfo i)
        else Except.ok (loopBody eInfo aInfo i) : Except Unit (List Issue)) with
      | .error e => .error e
      | .ok is1 =>
        match orderLoop eInfo aInfo fam (i + 1) rem with
        | .error e => .error e
        | .ok rest => .ok (is1 ++ rest)) := rfl

theorem orderLoop_ok {eInfo aInfo : List AuthorInfo} {b : Bool} :
    ∀ (rem i : Nat), ∃ out, orderLoop eInfo aInfo (some b) i rem = .ok out ∧
      ∀ x ∈ out, Issue.isHallucination x = false ∧ Issue.isCountMismatch x = false := by
  intro rem
  induction rem with
  | zero =>
    intro i
    exact ⟨[], rfl, fun x hx => absurd hx (List.not_mem_nil x)⟩
  | succ rem2 ih =>
    intro i
    obtain ⟨out, hout, hkinds⟩ := ih (i + 1)
    by_cases hi : i = 0
    · subst hi
      cases b with
      | true =>
        refine ⟨out, ?_, hkinds⟩
        rw [orderLoop_step, if_pos rfl, hout]
        simp
      | false =>
        refine ⟨loopBody eInfo aInfo 0 ++ out, ?_, ?_⟩
        · rw [orderLoop_step, if_pos rfl, hout]
        · intro x hx
          rcases List.mem_append.mp hx with hx | hx
          · exact loopBody_kinds x hx
          · exact hkinds x hx
    · refine ⟨loopBody eInfo aInfo i ++ out, ?_, ?_⟩
      · rw [orderLoop_step, if_neg hi, hout]
      · intro x hx
        rcases List.mem_append.mp hx with hx | hx
        · exact loopBody_kinds x hx
        · exact hkinds x hx

theorem countIssuesOf_smith_others (apiAuthors : List String) :
    countIssuesOf [("Smith, J."), ("others")] apiAuthors = [] := by
  unfold countIssuesOf
  have h : hasOthersOf [("Smith, J."), ("others")] = true := by decide
  rw [h]
  simp

theorem firstAuthorBlock_fst_of_ne {ka : Option String} {e0 a0 : AuthorInfo}
    (h : e0.lastname ≠ ("others")) :
    (firstAuthorBlock ka e0 a0).1 = some (decide (e0.lastname ≠ a0.lastname)) := by
  unfold firstAuthorBlock
  rw [if_pos h]

/-- Claim C7: with local authors `"Smith, J."` and the literal
`"others"` against any external list of eight authors, the author
section returns normally with exactly one `and others` hallucination
finding and no author-count-mismatch finding. -/
theorem compare_authors_and_others (apiAuthors : List String)
    (hlen : apiAuthors.length = 8) :
    ∃ out, compareAuthorsSection none [("Smith, J."), ("others")] apiAuthors = .ok out ∧
      out.countP Issue.isHallucination = 1 ∧ out.countP Issue.isCountMismatch = 0 := by
  have hapine : (apiAuthors.map mkAuthorInfo).isEmpty = false := by
    rcases apiAuthors with _ | ⟨a, rest⟩
    · simp at hlen
    · rfl
  have hsm : ((([("Smith, J."), ("others")].map mkAuthorInfo)).getD 0 default).lastname ≠
      ("others") := by decide
  have hfb := @firstAuthorBlock_fst_of_ne none
    ((([("Smith, J."), ("others")].map mkAuthorInfo)).getD 0 default)
    ((apiAuthors.map mkAuthorInfo).getD 0 default) hsm
  obtain ⟨loopOut, hloop, hloopkinds⟩ :=
    @orderLoop_ok ([("Smith, J."), ("others")].map mkAuthorInfo)
      (apiAuthors.map mkAuthorInfo)
      (decide (((([("Smith, J."), ("others")].map mkAuthorInfo)).getD 0 default).lastname ≠
        ((apiAuthors.map mkAuthorInfo).getD 0 default).lastname))
      (min ([("Smith, J."), ("others")].map mkAuthorInfo).length
        (apiAuthors.map mkAuthorInfo).length) 0
  have hE : etAlIssuesOf [("Smith, J."), ("others")] = [] := by decide
  have hH : hallucIssuesOf [("Smith, J."), ("others")] = [Issue.andOthersFew 1] := by decide
  refine ⟨etAlIssuesOf [("Smith, J."), ("others")] ++ hallucIssuesOf [("Smith, J."), ("others")] ++
    countIssuesOf [("Smith, J."), ("others")] apiAuthors ++
    (firstAuthorBlock none ((([("Smith, J."), ("others")].map mkAuthorInfo)).getD 0 default)
      ((apiAuthors.map mkAuthorInfo).getD 0 default)).2 ++ loopOut, ?_, ?_, ?_⟩
  · unfold compareAuthorsSection
    rw [if_neg (by decide)]
    rw [if_pos (by rw [hapine]; decide)]
    rw [hfb, hloop]
  · rw [hE, hH, countIssuesOf_smith_others]
    simp only [List.countP_append, List.nil_append]
    have hfb0 : (List.countP Issue.isHallucination
        (firstAuthorBlock none ((([("Smith, J."), ("others")].map mkAuthorInfo)).getD 0 default)
          ((apiAuthors.map mkAuthorInfo).getD 0 default)).2) = 0 := by
      rw [List.countP_eq_zero]
      intro x hx
      rw [(firstAuthorBlock_kinds x hx).1]
      exact Bool.false_ne_true
    have hl0 : List.countP Issue.isHallucination loopOut = 0 := by
      rw [List.countP_eq_zero]
      intro x hx
      rw [(hloopkinds x hx).1]
      exact Bool.false_ne_true
    rw [hfb0, hl0]
    decide
  · rw [hE, hH, countIssuesOf_smith_others]
    simp only [List.countP_append, List.nil_append]
    have hfb0 : (List.countP Issue.isCountMismatch
        (firstAuthorBlock none ((([("Smith, J."), ("others")].map mkAuthorInfo)).getD 0 default)
          ((apiAuthors.map mkAuthorInfo).getD 0 default)).2) = 0 := by
      rw [List.countP_eq_zero]
      intro x hx
      rw [(firstAuthorBlock_kinds x hx).2]
      exact Bool.false_ne_true
    have hl0 : List.countP Issue.isCountMismatch loopOut = 0 := by
      rw [List.countP_eq_zero]
      intro x hx
      rw [(hloopkinds x hx).2]
      exact Bool.false_ne_true
    rw [hfb0, hl0]
    decide

/-- Witness for claim C7 at a concrete external list of eight authors. -/
theorem compare_authors_and_others_witness :
    (([("J. Smith"), ("A. Brown"), ("B. Clark"), ("C. Davis"), ("D. Evans"), ("E. Ford"),
        ("F. Gray"), ("G. Hill")] : List String)).length = 8 ∧
      ∃ out, compareAuthorsSection none [("Smith, J."), ("others")]
          [("J. Smith"), ("A. Brown"), ("B. Clark"), ("C. Davis"), ("D. Evans"), ("E. Ford"),
            ("F. Gray"), ("G. Hill")] = .ok out ∧
        out.countP Issue.isHallucination = 1 ∧ out.countP Issue.isCountMismatch = 0 :=
  ⟨by decide, compare_authors_and_others _ (by decide)⟩

/-! ## Claim C2: the token-subset rule of `journals_match_fuzzy` -/

/-- Claim C2, counterexample: when one normalized name is a substring of
the other, the substring rule returns its own verdict
(`similarity > 0.4`) outright, so a failed substring rule forecloses the
token-subset rule: `"a"` vs `"a b c d e f"` has the subset property but
Jaccard similarity `1/6 ≤ 0.4`, and the function answers `false`. -/
theorem journals_match_fuzzy_substring_blocks_subset :
    journals_match_fuzzy ("a") ("a b c d e f") (mkRat 6 10) = false := by
  decide

/-- Claim C2, amended: if both normalized token sets are non-empty, the
smaller token set is contained in the larger, and either the normalized
strings are equal or neither is a substring of the other, then
`journals_match_fuzzy` returns `true` for every threshold (the substring
rule, when it fires with Jaccard similarity at most `0.4`, forecloses
the subset rule — the counterexample forces exactly that exclusion). -/
theorem journals_match_fuzzy_subset (j1 j2 : String) (t : ℚ)
    (hw1 : journalWords j1.data ≠ [])
    (hw2 : journalWords j2.data ≠ [])
    (hnosub : normalizeJournalNameL j1.data = normalizeJournalNameL j2.data ∨
      (containsL (normalizeJournalNameL j1.data) (normalizeJournalNameL j2.data) = false ∧
        containsL (normalizeJournalNameL j2.data) (normalizeJournalNameL j1.data) = false))
    (hsub : ((if (journalWords j1.data).length < (journalWords j2.data).length then
        journalWords j1.data else journalWords j2.data).all
      (fun w => (if (journalWords j1.data).length < (journalWords j2.data).length then
        journalWords j2.data else journalWords j1.data).contains w)) = true) :
    journals_match_fuzzy j1 j2 t = true := by
  unfold journals_match_fuzzy journalsMatchFuzzyL
  by_cases heq : normalizeJournalNameL j1.data = normalizeJournalNameL j2.data
  · rw [if_pos heq]
  · rw [if_neg heq]
    have hne : ((journalWords j1.data).isEmpty || (journalWords j2.data).isEmpty) = false := by
      rcases h1 : (journalWords j1.data).isEmpty with _ | _
      · rcases h2 : (journalWords j2.data).isEmpty with _ | _
        · rfl
        · exact absurd (List.isEmpty_eq_true.mp h2) hw2
      · exact absurd (List.isEmpty_eq_true.mp h1) hw1
    rw [if_neg (by rw [hne]; exact Bool.false_ne_true)]
    rcases hnosub with hss | ⟨hs1, hs2⟩
    · exact absurd hss heq
    · rw [if_neg (by rw [hs1, hs2]; exact Bool.false_ne_true)]
      rw [if_pos hsub]

/-- Witness for the amended claim C2 on `"Lab Chip"` vs
`"Lab on a Chip"`. -/
theorem journals_match_fuzzy_subset_witness :
    journalWords ("Lab Chip").data ≠ [] ∧
      journals_match_fuzzy ("Lab Chip") ("Lab on a Chip") (mkRat 6 10) = true :=
  ⟨by decide, journals_match_fuzzy_subset ("Lab Chip") ("Lab on a Chip") (mkRat 6 10)
    (by decide) (by decide) (Or.inr ⟨by decide, by decide⟩) (by decide)⟩

/-! ## Claim C8: suggestion ranking order -/

theorem computeScore_ge_of_high {ts : ℚ} (h : mkRat 8 10 < ts) (am ym : Bool) (st : String) :
    200 ≤ computeScore ts am ym st := by
  simp only [computeScore]
  rw [if_pos h]
  have h1 : (0:ℤ) ≤ (if am = true ∧ ts ≤ mkRat 6 10 then (30:ℤ) else 0) := by
    split <;> norm_num
  have h2 : (0:ℤ) ≤ (if ym = true ∧ ts ≤ mkRat 6 10 then (20:ℤ) else 0) := by
    split <;> norm_num
  have h3 : (0:ℤ) ≤ (if st = ("author_year") then (5:ℤ)
      else if st = ("author_keywords") then 3 else 0) := by
    split
    · norm_num
    · split <;> norm_num
  linarith [h1, h2, h3]

theorem computeScore_le_of_mid {ts : ℚ} (h7 : ts ≤ mkRat 7 10) (h6 : mkRat 6 10 < ts)
    (am ym : Bool) (st : String) :
    computeScore ts am ym st ≤ 155 := by
  have hc78 : mkRat 7 10 < mkRat 8 10 := by decide
  have h8 : ¬(mkRat 8 10 < ts) := by
    intro h
    linarith
  have h7n : ¬(mkRat 7 10 < ts) := by
    intro h
    linarith
  have hts6 : ¬(ts ≤ mkRat 6 10) := by
    intro h
    linarith
  simp only [computeScore]
  rw [if_neg h8, if_neg h7n]
  have hb1 : (if am = true ∧ ts ≤ mkRat 6 10 then (30:ℤ) else 0) = 0 := by
    rw [if_neg]
    intro h
    exact hts6 h.2
  have hb2 : (if ym = true ∧ ts ≤ mkRat 6 10 then (20:ℤ) else 0) = 0 := by
    rw [if_neg]
    intro h
    exact hts6 h.2
  have hb3 : (if st = ("author_year") then (5:ℤ)
      else if st = ("author_keywords") then 3 else 0) ≤ 5 := by
    split
    · norm_num
    · split <;> norm_num
  rw [hb1, hb2]
  have hbase : (if mkRat 6 10 < ts ∧ am = true then (150:ℤ)
      else if mkRat 6 10 < ts ∧ ym = true then 120
      else if mkRat 6 10 < ts then 110
      else if mkRat 5 10 < ts then 100
      else Int.floor (ts * 100)) ≤ 150 := by
    by_cases hA : mkRat 6 10 < ts ∧ am = true
    · rw [if_pos hA]
    · rw [if_neg hA]
      by_cases hB : mkRat 6 10 < ts ∧ ym = true
      · rw [if_pos hB]
        norm_num
      · rw [if_neg hB, if_pos h6]
        norm_num
  linarith [hbase, hb3]

theorem rankScored_fields {efa ey : Option String} {etr : String} {pool : List Sug} {x : Scored}
    (hx : x ∈ rankScored efa ey etr pool) :
    x.ts = titleSimilarity (rankEntryTitle etr) x.sug ∧
      x.score = computeScore (titleSimilarity (rankEntryTitle etr) x.sug)
        (authorMatchesB (efa.map (fun a => (extract_author_components a).1)) x.sug)
        (yearMatchesB ey x.sug) x.sug.strategy := by
  rcases List.mem_map.mp hx with ⟨s, _, rfl⟩
  exact ⟨rfl, rfl⟩

/-- Claim C8: ranking is deterministic (a pure function of entry and
pool), and any candidate with title similarity `0.85` is ordered before
any candidate with title similarity `0.65`, whatever the latter's
author, year and strategy bonuses: the former scores at least `200`,
the latter at most `155`, and the output is sorted by descending
`(score, similarity)`. -/
theorem rank_suggestions_deterministic_and_orders (entryFirstAuthor entryYear : Option String)
    (entryTitleRaw : String) (pool : List Sug) (i j : Nat)
    (hi : i < (rankSuggestions entryFirstAuthor entryYear entryTitleRaw pool).length)
    (hj : j < (rankSuggestions entryFirstAuthor entryYear entryTitleRaw pool).length)
    (h85 : titleSimilarity (rankEntryTitle entryTitleRaw)
      ((rankSuggestions entryFirstAuthor entryYear entryTitleRaw pool).getD i default) =
      mkRat 85 100)
    (h65 : titleSimilarity (rankEntryTitle entryTitleRaw)
      ((rankSuggestions entryFirstAuthor entryYear entryTitleRaw pool).getD j default) =
      mkRat 65 100) :
    rankSuggestions entryFirstAuthor entryYear entryTitleRaw pool =
      rankSuggestions entryFirstAuthor entryYear entryTitleRaw pool ∧ i < j := by
  refine ⟨rfl, ?_⟩
  have hsorted : List.Sorted keyGE
      (List.insertionSort keyGE (rankScored entryFirstAuthor entryYear entryTitleRaw pool)) :=
    List.sorted_insertionSort keyGE _
  have hperm := List.perm_insertionSort keyGE
    (rankScored entryFirstAuthor entryYear entryTitleRaw pool)
  have hlen : (rankSuggestions entryFirstAuthor entryYear entryTitleRaw pool).length =
      (List.insertionSort keyGE (rankScored entryFirstAuthor entryYear entryTitleRaw pool)).length := by
    simp [rankSuggestions]
  have hi2 : i < (List.insertionSort keyGE
      (rankScored entryFirstAuthor entryYear entryTitleRaw pool)).length := hlen ▸ hi
  have hj2 : j < (List.insertionSort keyGE
      (rankScored entryFirstAuthor entryYear entryTitleRaw pool)).length := hlen ▸ hj
  set sorted := List.insertionSort keyGE
    (rankScored entryFirstAuthor entryYear entryTitleRaw pool) with hsortdef
  have hgetD : ∀ (n : Nat) (hn : n < sorted.length),
      (rankSuggestions entryFirstAuthor entryYear entryTitleRaw pool).getD n default =
        (sorted.get ⟨n, hn⟩).sug := by
    intro n hn
    have hn' : n < (rankSuggestions entryFirstAuthor entryYear entryTitleRaw pool).length :=
      hlen ▸ hn
    rw [List.getD_eq_getElem _ _ hn']
    have hb : n < (sorted.map (fun x => x.sug)).length := by simpa using hn
    show (sorted.map (fun x => x.sug))[n] = _
    rw [List.getElem_map]
    rfl
  have hfieldsi := rankScored_fields (hperm.mem_iff.mp (List.get_mem sorted i hi2))
  have hfieldsj := rankScored_fields (hperm.mem_iff.mp (List.get_mem sorted j hj2))
  rw [hgetD i hi2] at h85
  rw [hgetD j hj2] at h65
  have hscorei : 200 ≤ (sorted.get ⟨i, hi2⟩).score := by
    rw [hfieldsi.2, h85]
    exact computeScore_ge_of_high (by decide) _ _ _
  have hscorej : (sorted.get ⟨j, hj2⟩).score ≤ 155 := by
    rw [hfieldsj.2, h65]
    exact computeScore_le_of_mid (by decide) (by decide) _ _ _
  by_contra hij
  rcases Nat.lt_or_ge j i with hji | hji2
  · have hpw := (List.pairwise_iff_get.mp hsorted) ⟨j, hj2⟩ ⟨i, hi2⟩ hji
    rcases hpw with hlt | ⟨heq, _⟩
    · linarith
    · linarith
  · have : i = j := by omega
    subst this
    rw [h85] at h65
    exact absurd h65 (by decide)

/-- Witness for claim C8: a concrete two-candidate pool in which the
`0.85` candidate is listed second in the pool yet ranked first. -/
theorem rank_suggestions_witness_full :
    titleSimilarity (rankEntryTitle
        ("w01 w02 w03 w04 w05 w06 w07 w08 w09 w10 w11 w12 w13 w14 w15 w16 w17 w18 w19 w20"))
      ((rankSuggestions none none
        ("w01 w02 w03 w04 w05 w06 w07 w08 w09 w10 w11 w12 w13 w14 w15 w16 w17 w18 w19 w20")
        [⟨("w01 w02 w03 w04 w05 w06 w07 w08 w09 w10 w11 w12 w13"), ("N/A"), ("N/A"), ("")⟩,
         ⟨("w01 w02 w03 w04 w05 w06 w07 w08 w09 w10 w11 w12 w13 w14 w15 w16 w17"), ("N/A"),
           ("N/A"), ("")⟩]).getD 0 default) = mkRat 85 100 ∧
    (0 : Nat) < 1 := by
  constructor
  · decide
  · exact (rank_suggestions_deterministic_and_orders none none
      ("w01 w02 w03 w04 w05 w06 w07 w08 w09 w10 w11 w12 w13 w14 w15 w16 w17 w18 w19 w20")
      [⟨("w01 w02 w03 w04 w05 w06 w07 w08 w09 w10 w11 w12 w13"), ("N/A"), ("N/A"), ("")⟩,
       ⟨("w01 w02 w03 w04 w05 w06 w07 w08 w09 w10 w11 w12 w13 w14 w15 w16 w17"), ("N/A"),
         ("N/A"), ("")⟩] 0 1 (by decide) (by decide) (by decide) (by decide)).2

end Biblatex
